import Mathlib

/-!
Verification of the netidx hierarchical name-resolution client core:
the path algebra (src/path.rs) and the federated resolver multiplexer
(src/resolver.rs).  Paths are modelled as lists of characters; the
escape-aware splitting helpers of the `utils` module (not part of the
sources under verification) are modelled from the specification's
description: a separator is significant iff it is preceded by an even
number of escape characters.
-/

namespace Netidx

/-- The path separator character (src/path.rs `SEP`). -/
def SEP : Char := '/'

/-- The escape character (src/path.rs `ESC`). -/
def ESC : Char := '\\'

/-- A path is its character sequence (Rust `Path(Arc<str>)`). -/
abbrev PathStr := List Char

/-- `oddEsc rev` holds when the reversed prefix `rev` begins with an odd
run of escape characters, i.e. the character that follows the original
prefix is escaped.  Modelled from the spec: the escape-aware separator
search "must ignore separators preceded by an odd number of `\`"
(`utils::is_escaped`). -/
def oddEsc (rev : List Char) : Bool :=
  (rev.takeWhile (fun c => c = ESC)).length % 2 = 1

/-- Escape-aware splitting on unescaped separators, accumulating the
current component in reverse.  Modelled from the spec:
`utils::split_escaped` splits on separators not preceded by an odd
number of escapes. -/
def splitEscAux : List Char → List Char → List (List Char)
  | [], cur => [cur.reverse]
  | c :: rest, cur =>
    if c = SEP ∧ ¬ oddEsc cur then cur.reverse :: splitEscAux rest []
    else splitEscAux rest (c :: cur)

/-- Modelled from the spec: `utils::split_escaped s ESC SEP`. -/
def splitEsc (s : List Char) : List (List Char) := splitEscAux s []

/-- The state (reversed current component) after feeding `s` to the
splitter starting from state `cur`. -/
def stateAfter : List Char → List Char → List Char
  | [], cur => cur
  | c :: rest, cur =>
    if c = SEP ∧ ¬ oddEsc cur then stateAfter rest []
    else stateAfter rest (c :: cur)

/-- `Path::parts` (src/path.rs): split on unescaped separators, skipping
the artifacts of a leading `/` (2 components for `"/"` itself, 1 for any
other absolute path). -/
def parts (s : List Char) : List (List Char) :=
  let skip : Nat := if s = [SEP] then 2 else if s.head? = some SEP then 1 else 0
  (splitEsc s).drop skip

/-- `is_canonical` (src/path.rs): no empty component. -/
def isCanonical (s : List Char) : Bool := !(parts s).contains []

/-- Join components with the separator, first component bare — the loop
body of `canonize` (src/path.rs). -/
def joinParts : List (List Char) → List Char
  | [] => []
  | [q] => q
  | q :: rest => q ++ SEP :: joinParts rest

/-- `canonize` (src/path.rs): keep a leading separator, join the
non-empty components. -/
def canonize (s : List Char) : List Char :=
  if s = [] then []
  else
    (if s.head? = some SEP then [SEP] else []) ++
      joinParts ((parts s).filter (fun p => p ≠ []))

/-- `Path::from` (src/path.rs `impl From<String> for Path`): canonize
unless already canonical. -/
def pathFrom (s : List Char) : List Char :=
  if isCanonical s then s else canonize s

/-- Position `i` of `s` holds an escaped character: it is preceded by an
odd run of escape characters (modelled from the spec, `utils::is_escaped`). -/
def escapedAt (s : List Char) (i : Nat) : Bool := oddEsc (s.take i).reverse

/-- Scan positions `n-1, n-2, …, 0` for the last unescaped separator.
This is `Path::find_sep_int` with `str::rfind` (src/path.rs): repeatedly
take the last separator, skipping it when escaped. -/
def rfindSepFrom (s : List Char) : Nat → Option Nat
  | 0 => none
  | n + 1 =>
    if s.get? n = some SEP ∧ ¬ escapedAt s n then some n else rfindSepFrom s n

/-- `Path::rfind_sep` (src/path.rs). -/
def rfindSep (s : List Char) : Option Nat := rfindSepFrom s s.length

/-- `Path::dirname` (src/path.rs): everything before the last unescaped
separator, none when there is no such separator or it is the leading one. -/
def dirname (s : List Char) : Option (List Char) :=
  (rfindSep s).bind (fun i => if i = 0 then none else some (s.take i))

/-- `Path::basename` (src/path.rs): everything after the last unescaped
separator; the whole string when there is none (and it is non-empty). -/
def basename (s : List Char) : Option (List Char) :=
  match rfindSep s with
  | none => if s.length > 0 then some s else none
  | some i => if s.length ≤ 1 then none else some (s.drop (i + 1))

/-- `Path::append` (src/path.rs): `self ++ "/" ++ other`, canonised;
the receiver is returned unchanged when `other` is empty. -/
def append (self other : List Char) : List Char :=
  if other = [] then self else pathFrom (self ++ SEP :: other)

/-- A component is atomic when the splitter does not cut it: it contains
no unescaped separator. -/
def atomicPart (q : List Char) : Prop := splitEsc q = [q]

/-- The shape of a component list produced by the splitter: every
component is atomic and every component other than the last ends in an
even run of escapes (so that a separator appended after it stays
unescaped). -/
def goodParts : List (List Char) → Prop
  | [] => True
  | q :: rest =>
    atomicPart q ∧ (rest = [] ∨ oddEsc q.reverse = false) ∧ goodParts rest

/-! ## The federated resolver (src/resolver.rs) -/

deriving instance DecidableEq for Except

/-- `MAX_REFERRALS` (src/resolver.rs). -/
def MAX_REFERRALS : Nat := 128

/-- A referral record.  Modelled from the spec: `{ path, ttl, addrs }`;
only `path` and `ttl` are observed by the multiplexer core. -/
structure Referral where
  path : PathStr
  ttl : Nat
deriving DecidableEq

/-- The `ToPath`/`ToReferral` trait pair of src/resolver.rs: a request
type exposes an optional path, a reply type an optional referral. -/
structure Proto (T F : Type) where
  path : T → Option PathStr
  refOf : F → Option Referral

/-- Lexicographic comparison of paths (Rust `Ord` on `str`: byte order of
the UTF-8 encoding, which agrees with code-point order). -/
def strCmp : List Char → List Char → Ordering
  | [], [] => .eq
  | [], _ :: _ => .lt
  | _ :: _, [] => .gt
  | a :: xs, b :: ys => if a < b then .lt else if b < a then .gt else strCmp xs ys

/-- The router cache: the `BTreeMap<Path, (Instant, Referral)>` of
`Router` (src/resolver.rs), kept as a key-sorted association list. -/
abbrev Cache := List (PathStr × Nat × Referral)

/-- `BTreeMap::insert` on the sorted association list: replace an equal
key, otherwise insert at the ordered position (`Router::add_referral`). -/
def cacheInsert (e : PathStr × Nat × Referral) : Cache → Cache
  | [] => [e]
  | f :: rest =>
    match strCmp e.1 f.1 with
    | .lt => e :: f :: rest
    | .eq => e :: rest
    | .gt => f :: cacheInsert e rest

/-- `Router::get_referral` (src/resolver.rs): exact-key lookup. -/
def getReferral (c : Cache) (p : PathStr) : Option Referral :=
  (c.find? (fun e => e.1 == p)).map (fun e => e.2.2)

/-- The inner walk of `Router::route_batch` (src/resolver.rs): `entries`
holds the cached entries with key ≤ the query path in descending key
order (the reversed `range (Unbounded, Included query)`); keys that are
not string prefixes of the query are skipped; at the first prefix the
operation is routed to it when unexpired, otherwise the key is marked
for collection and the operation falls to the default bucket. -/
def routeOne (now : Nat) (q : PathStr) :
    List (PathStr × Nat × Referral) → Option PathStr × List PathStr
  | [] => (none, [])
  | (p, exp, _) :: rest =>
    if p.isPrefixOf q then
      if now < exp then (some p, []) else (none, [p])
    else routeOne now q rest

/-- Append a keyed element to its bucket, creating the bucket on first
use (the `batches.entry(..).or_insert_with(..).push(..)` pattern of
`Router::route_batch`). -/
def pushBucket {K A : Type} [DecidableEq K] :
    List (K × List A) → K → A → List (K × List A)
  | [], k, v => [(k, [v])]
  | (k', vs) :: rest, k, v =>
    if k' = k then (k', vs ++ [v]) :: rest else (k', vs) :: pushBucket rest k v

variable {T F : Type}

/-- The per-operation body of the `for v in batch.iter()` loop of
`Router::route_batch` (src/resolver.rs): a pathless operation goes to
the default bucket; otherwise the descending walk from the greatest
cached key ≤ the path decides the bucket and possibly marks an expired
key. -/
def routeStep (proto : Proto T F) (cached : Cache) (now : Nat)
    (acc : List (Option PathStr × List (Nat × T)) × List PathStr) (it : Nat × T) :
    List (Option PathStr × List (Nat × T)) × List PathStr :=
  match proto.path it.2 with
  | none => (pushBucket acc.1 none it, acc.2)
  | some q =>
    let r := routeOne now q ((cached.filter (fun e => strCmp e.1 q ≠ .gt)).reverse)
    (pushBucket acc.1 r.1 it, acc.2 ++ r.2)

/-- `Router::route_batch` (src/resolver.rs): split an indexed batch into
per-referral buckets, lazily evicting expired entries that were hit;
returns the buckets and the cache after eviction. -/
def routeBatch (proto : Proto T F) (cached : Cache) (now : Nat) (batch : List T) :
    List (Option PathStr × List (Nat × T)) × Cache :=
  let acc := batch.enum.foldl (routeStep proto cached now) ([], [])
  (acc.1, cached.filter (fun e => ¬ acc.2.contains e.1))

/-- The state of `ResolverWrapInner` observed by the core: the router
cache and the key set of the per-referral connection map `by_path`. -/
structure MuxState where
  cached : Cache
  byPath : List PathStr

/-- The environment of one `ResolverWrap::send` call: the typed protocol,
the behaviour of every backend connection (indexed by iteration number
and bucket key; `none` is the default backend), and the instants read by
`Instant::now()` when routing and when installing referrals. -/
structure Env (T F : Type) where
  proto : Proto T F
  conn : Nat → Option PathStr → List (Nat × T) → Except String (List (Nat × F))
  routeClock : Nat → Nat
  addClock : Nat → Nat

/-- The backend contract (spec §6): an `Ok` reply batch carries exactly
the request indices of its sub-batch, each exactly once. -/
def ConnContract (env : Env T F) : Prop :=
  ∀ iter k sb out, env.conn iter k sb = .ok out →
    (out.map Prod.fst).Perm (sb.map Prod.fst)

/-- The `by_path` overflow check at the top of each send iteration
(src/resolver.rs: "a workable sledgehammer"). -/
def overflowCheck (st : MuxState) : MuxState :=
  if st.byPath.length > MAX_REFERRALS then { st with byPath := [] } else st

/-- Walk the routed buckets opening a connection for every referral key
that has none (the dispatch `match` of `ResolverWrap::send`); the
`router.get_referral(&rp).unwrap()` of the source is modelled as an
`error` outcome when the key is absent from the cache. -/
def openConns (cached : Cache) :
    List PathStr → List (Option PathStr × List (Nat × T)) → Except Unit (List PathStr)
  | byPath, [] => .ok byPath
  | byPath, (none, _) :: rest => openConns cached byPath rest
  | byPath, (some p, _) :: rest =>
    if byPath.contains p then openConns cached byPath rest
    else
      match getReferral cached p with
      | some _ => openConns cached (byPath ++ [p]) rest
      | none => .error ()

/-- `Router::add_referral` (src/resolver.rs): insert the referral keyed
on its path with expiry `now + ttl`, overwriting any previous entry. -/
def addReferral (cached : Cache) (now : Nat) (r : Referral) : Cache :=
  cacheInsert (r.path, now + r.ttl, r) cached

/-- The body of the `for (id, reply) in r.drain(..)` loop of
`ResolverWrap::send` (src/resolver.rs): a referral reply is installed
into the cache and raises the flag, a terminal reply joins `finished`. -/
def collectStep (proto : Proto T F) (addNow : Nat)
    (acc : Cache × List (Nat × F) × Bool) (it : Nat × F) :
    Cache × List (Nat × F) × Bool :=
  match proto.refOf it.2 with
  | some ref => (addReferral acc.1 addNow ref, acc.2.1, true)
  | none => (acc.1, acc.2.1 ++ [it], acc.2.2)

/-- Collect the awaited reply batches (the `for r in qresult` loop of
`ResolverWrap::send`): referral replies are installed into the cache and
raise the `referral` flag, terminal replies accumulate in `finished`;
the first transport error aborts, keeping the cache mutations made so
far. -/
def processReplies (proto : Proto T F) (addNow : Nat) :
    List (Except String (List (Nat × F))) → Cache → List (Nat × F) → Bool →
    Cache × Except String (List (Nat × F) × Bool)
  | [], cached, fin, flag => (cached, .ok (fin, flag))
  | .error e :: _, cached, _, _ => (cached, .error e)
  | .ok r :: rest, cached, fin, flag =>
    let acc := r.foldl (collectStep proto addNow) (cached, fin, flag)
    processReplies proto addNow rest acc.1 acc.2.1 acc.2.2

/-- Errors of a `ResolverWrap::send` call: a panic of the
`get_referral(..).unwrap()`, a transport error, or the referral-depth
error. -/
inductive SendErr
  | panic
  | conn (msg : String)
  | depth (msg : String)
deriving DecidableEq

/-- One dispatch round: the buckets handed to backends in an iteration. -/
abbrev Dispatch (T : Type) := List (Option PathStr × List (Nat × T))

/-- One iteration of the referral loop of `ResolverWrap::send`
(src/resolver.rs): overflow check, route, open connections, dispatch,
collect.  Returns the dispatched buckets, the multiplexer state
afterwards, and either an error or the `finished` pairs together with
the `referral` flag. -/
def sendIter (env : Env T F) (batch : List T) (st : MuxState) (referrals : Nat) :
    Dispatch T × MuxState × Except SendErr (List (Nat × F) × Bool) :=
  let st₁ := overflowCheck st
  let now := env.routeClock referrals
  let rb := routeBatch env.proto st₁.cached now batch
  let buckets := rb.1
  let cached₁ := rb.2
  match openConns cached₁ st₁.byPath buckets with
  | .error _ => (buckets, { cached := cached₁, byPath := st₁.byPath }, .error .panic)
  | .ok byPath₁ =>
    match processReplies env.proto (env.addClock referrals)
        (buckets.map (fun b => env.conn referrals b.1 b.2)) cached₁ [] false with
    | (cached₂, .error e) =>
      (buckets, { cached := cached₂, byPath := byPath₁ }, .error (.conn e))
    | (cached₂, .ok (fin, flag)) =>
      (buckets, { cached := cached₂, byPath := byPath₁ }, .ok (fin, flag))

/-- The referral loop of `ResolverWrap::send` (src/resolver.rs): route
the whole original batch, dispatch, collect; return the `finished`
replies sorted by index when no referral was seen, otherwise repeat with
the counter incremented, failing once it exceeds `MAX_REFERRALS`.
Besides the result it returns the per-iteration dispatch trace and the
final multiplexer state.  The structural `fuel` argument is kept equal
to `MAX_REFERRALS + 1 - referrals`; since the explicit depth check fires
first, the inner fuel-exhaustion arm (which returns the same depth
error) is unreachable. -/
def sendLoop (env : Env T F) (batch : List T) :
    Nat → Nat → MuxState → Except SendErr (List F) × List (Dispatch T) × MuxState
  | referrals, fuel, st =>
    let it := sendIter env batch st referrals
    let buckets := it.1
    let st₂ := it.2.1
    match it.2.2 with
    | .error e => (.error e, [buckets], st₂)
    | .ok (fin, flag) =>
      if flag then
        if referrals + 1 > MAX_REFERRALS then
          (.error (.depth "maximum referral depth 128 reached, giving up"), [buckets], st₂)
        else
          match fuel with
          | 0 =>
            (.error (.depth "maximum referral depth 128 reached, giving up"), [buckets], st₂)
          | fuel' + 1 =>
            let r := sendLoop env batch (referrals + 1) fuel' st₂
            (r.1, buckets :: r.2.1, r.2.2)
      else
        (.ok ((fin.insertionSort (fun a b => a.1 ≤ b.1)).map Prod.snd), [buckets], st₂)

/-- `ResolverWrap::send` (src/resolver.rs): run the referral loop with a
zeroed counter. -/
def send (env : Env T F) (st : MuxState) (batch : List T) :
    Except SendErr (List F) × List (Dispatch T) × MuxState :=
  sendLoop env batch 0 (MAX_REFERRALS + 1) st

/-! ### The concrete read and write protocols -/

/-- `ToWrite` (referenced by src/resolver.rs; the protocol module is
external, shape taken from the `ToPath` impl). -/
inductive ToWrite
  | publishOp (p : PathStr)
  | unpublishOp (p : PathStr)
  | publishDefaultOp (p : PathStr)
  | clearOp
  | heartbeat
deriving DecidableEq

/-- `FromWrite`.  Modelled from the spec: write replies are `Published`,
`Unpublished`, `Referral(r)` or `Error(kind)` (the protocol module is
not among the sources). -/
inductive FromWrite
  | published
  | unpublished
  | referral (r : Referral)
  | error (s : String)
deriving DecidableEq

/-- `impl ToPath for ToWrite` and `impl ToReferral for FromWrite`
(src/resolver.rs). -/
def protoWrite : Proto ToWrite FromWrite where
  path := fun t =>
    match t with
    | .clearOp | .heartbeat => none
    | .publishOp p | .unpublishOp p | .publishDefaultOp p => some p
  refOf := fun f =>
    match f with
    | .referral r => some r
    | _ => none

/-- `ToRead` (shape taken from the `ToPath` impl in src/resolver.rs). -/
inductive ToRead
  | listOp (p : PathStr)
  | tableOp (p : PathStr)
  | resolveOp (p : PathStr)
deriving DecidableEq

/-- `FromRead`.  Modelled from the spec: read replies are `Resolved`,
`List`, `Table`, `Referral(r)` or `Error(kind)`; terminal payloads are
abstracted to tokens. -/
inductive FromRead
  | resolved (n : Nat)
  | listed (ps : List PathStr)
  | tableDesc (n : Nat)
  | referral (r : Referral)
  | error (s : String)
deriving DecidableEq

/-- `impl ToPath for ToRead` and `impl ToReferral for FromRead`
(src/resolver.rs). -/
def protoRead : Proto ToRead FromRead where
  path := fun t =>
    match t with
    | .listOp p | .tableOp p | .resolveOp p => some p
  refOf := fun f =>
    match f with
    | .referral r => some r
    | _ => none

/-- Errors of `ResolverWrite::send_expect`: an inner send error, a reply
count mismatch, or a reply that differs from the expected one (named
together with its originating request; the source's message also
interpolates the pre-extend buffer length in the count case). -/
inductive WriteErr
  | inner (e : SendErr)
  | badLen (got : Nat) (want : Nat)
  | mismatch (req : ToWrite) (reply : FromWrite)
deriving DecidableEq

/-- The reply-check loop of `ResolverWrite::send_expect`
(src/resolver.rs): fail at the first reply differing from the expected
one, naming the request at the same index (requests and replies zipped). -/
def checkExpected (expected : FromWrite) :
    List (ToWrite × FromWrite) → Except WriteErr Unit
  | [] => .ok ()
  | (t, f) :: rest =>
    if f = expected then checkExpected expected rest else .error (.mismatch t f)

/-- `ResolverWrite::send_expect` (src/resolver.rs): build a homogeneous
batch, send it, require the reply count to match and every reply to
equal `expected`. -/
def sendExpect (env : Env ToWrite FromWrite) (st : MuxState)
    (batch : List PathStr) (f : PathStr → ToWrite) (expected : FromWrite) :
    Except WriteErr Unit :=
  let reqs := batch.map f
  match (send env st reqs).1 with
  | .error e => .error (.inner e)
  | .ok froms =>
    if froms.length ≠ reqs.length then .error (.badLen froms.length reqs.length)
    else checkExpected expected (reqs.zip froms)

/-- `ResolverWrite::publish` (src/resolver.rs). -/
def publish (env : Env ToWrite FromWrite) (st : MuxState) (batch : List PathStr) :
    Except WriteErr Unit :=
  sendExpect env st batch ToWrite.publishOp FromWrite.published

/-- `ResolverWrite::publish_default` (src/resolver.rs). -/
def publishDefault (env : Env ToWrite FromWrite) (st : MuxState)
    (batch : List PathStr) : Except WriteErr Unit :=
  sendExpect env st batch ToWrite.publishDefaultOp FromWrite.published

/-- `ResolverWrite::unpublish` (src/resolver.rs). -/
def unpublish (env : Env ToWrite FromWrite) (st : MuxState) (batch : List PathStr) :
    Except WriteErr Unit :=
  sendExpect env st batch ToWrite.unpublishOp FromWrite.unpublished

/-! ### Concrete environments used by witnesses and counterexamples -/

/-- The empty multiplexer state: no cached referrals, no per-referral
connections. -/
def st0 : MuxState := ⟨[], []⟩

/-- Instances letting `insertionSort` by first component be reasoned
about. -/
instance {F : Type} : IsTotal (Nat × F) (fun a b => a.1 ≤ b.1) :=
  ⟨fun a b => Nat.le_total a.1 b.1⟩

instance {F : Type} : IsTrans (Nat × F) (fun a b => a.1 ≤ b.1) :=
  ⟨fun a b c hab hbc => Nat.le_trans hab hbc⟩

/-- A well-behaved backend: reply `resolved i` to the request with
index `i`. -/
def envResolved : Env ToRead FromRead :=
  ⟨protoRead, fun _ _ sb => .ok (sb.map (fun it => (it.1, FromRead.resolved it.1))),
   fun _ => 0, fun _ => 0⟩

/-- A pathological backend: every reply is a referral to `/x`
(spec scenario: referral depth limit). -/
def envLoop : Env ToRead FromRead :=
  ⟨protoRead,
   fun _ _ sb => .ok (sb.map (fun it => (it.1, FromRead.referral ⟨("/x").data, 1⟩))),
   fun _ => 0, fun _ => 0⟩

/-- A numbered path `/n` in decimal. -/
def pathOfNat (n : Nat) : PathStr := SEP :: Nat.toDigits 10 n

/-- A fan-out scenario: in iteration 0 every operation `i` draws a
referral delegating `/i` to its own backend; afterwards every backend
resolves. -/
def envFanout : Env ToRead FromRead :=
  ⟨protoRead,
   fun iter _ sb => .ok (sb.map (fun it => (it.1,
     if iter = 0 then FromRead.referral ⟨pathOfNat it.1, 1⟩
     else FromRead.resolved it.1))),
   fun _ => 0, fun _ => 0⟩

/-- A batch of `MAX_REFERRALS + 1` operations on distinct paths. -/
def batchFanout : List ToRead :=
  (List.range (MAX_REFERRALS + 1)).map (fun n => ToRead.resolveOp (pathOfNat n))

/-- A mixed scenario: the default backend resolves operation 0 but
refers operation 1 to `/x`; the `/x` backend resolves everything. -/
def envMixed : Env ToRead FromRead :=
  ⟨protoRead,
   fun _ k sb => .ok (sb.map (fun it => (it.1,
     match k with
     | none =>
       if it.1 = 1 then FromRead.referral ⟨("/x").data, 1⟩ else FromRead.resolved 0
     | some _ => FromRead.resolved 1))),
   fun _ => 0, fun _ => 0⟩

/-- The cache produced by the `MAX_REFERRALS + 1` `add_referral` calls
of the fan-out scenario's first iteration. -/
def fanoutCache : Cache :=
  (List.range (MAX_REFERRALS + 1)).foldl
    (fun c n => addReferral c 0 ⟨pathOfNat n, 1⟩) []

/-- A length-graded path `/a…a` with `n` letters `a`; distinct lengths
make the fan-out keys distinct by construction. -/
def gradedPath (n : Nat) : PathStr := SEP :: List.replicate n 'a'

/-- The `MAX_REFERRALS + 1` distinct keys delegated by the fan-out
scenario's referrals. -/
def fanKeys : List PathStr := (List.range (MAX_REFERRALS + 1)).map gradedPath

/-- A router cache holding an unexpired entry for every fan-out key. -/
def fanCache : Cache := fanKeys.map (fun p => (p, 1, ⟨p, 1⟩))

/-- The per-referral buckets of the fan-out dispatch: one bucket per
key, holding the operation that was routed to it. -/
def fanBuckets : List (Option PathStr × List (Nat × ToRead)) :=
  fanKeys.map (fun p => (some p, [(p.length - 1, ToRead.resolveOp p)]))

/-- A well-behaved write backend: every reply is `published`. -/
def envPubOk : Env ToWrite FromWrite :=
  ⟨protoWrite, fun _ _ sb => .ok (sb.map (fun it => (it.1, FromWrite.published))),
   fun _ => 0, fun _ => 0⟩

/-- A diverging write backend: the request with index 1 draws
`unpublished`, every other request draws `published`. -/
def envPubBad : Env ToWrite FromWrite :=
  ⟨protoWrite,
   fun _ _ sb => .ok (sb.map (fun it => (it.1,
     if it.1 = 1 then FromWrite.unpublished else FromWrite.published))),
   fun _ => 0, fun _ => 0⟩



/-- The `BTreeMap` invariant: keys strictly increasing. -/
def SortedCache (c : Cache) : Prop :=
  List.Pairwise (fun x y : PathStr × Nat × Referral => strCmp x.1 y.1 = .lt) c


/-! ## Theorems -/

/-- C1, counterexample: with an unexpired cache entry keyed `"/foo"`,
`route_batch` routes an operation on `"/foobar"` to the `Some "/foo"`
bucket — no bucket is the default `none` bucket — contradicting the
claim that `"/foobar"` is routed to the `None` bucket. -/
theorem c1_counterexample :
    (routeBatch protoRead [(("/foo").data, 1, ⟨("/foo").data, 1⟩)] 0
      [ToRead.resolveOp (("/foobar").data)]).1
      = [(some (("/foo").data), [(0, ToRead.resolveOp (("/foobar").data))])] ∧
    ∀ b ∈ (routeBatch protoRead [(("/foo").data, 1, ⟨("/foo").data, 1⟩)] 0
      [ToRead.resolveOp (("/foobar").data)]).1, b.1 ≠ none := by
  decide

/-- C1, amended: for every referral cache consisting of an entry keyed
`"/foo"` that is unexpired at routing time, `route_batch` routes an
operation whose path is `"/foobar"` to the `Some "/foo"` bucket: the
prefix test is the raw string `starts_with`, which is not
component-aligned, so `"/foo"` does match `"/foobar"`. -/
theorem c1_boundary_raw_prefix (now exp : Nat) (r : Referral) (h : now < exp) :
    (routeBatch protoRead [(("/foo").data, exp, r)] now
      [ToRead.resolveOp (("/foobar").data)]).1
      = [(some (("/foo").data), [(0, ToRead.resolveOp (("/foobar").data))])] := by
  simp +decide [routeBatch, routeStep, routeOne, pushBucket, protoRead, h,
    List.enum, List.enumFrom, List.foldl, List.filter]

/-- Witness for C1 at `now = 0`, `exp = 1`. -/
theorem c1_boundary_raw_prefix_witness :
    (0 < 1) ∧
    (routeBatch protoRead [(("/foo").data, 1, ⟨("/foo").data, 60⟩)] 0
      [ToRead.resolveOp (("/foobar").data)]).1
      = [(some (("/foo").data), [(0, ToRead.resolveOp (("/foobar").data))])] :=
  ⟨by decide, c1_boundary_raw_prefix 0 1 ⟨("/foo").data, 60⟩ (by decide)⟩

/-- C5: with unexpired cache entries keyed `"/a"` and `"/a/b"`,
`route_batch` routes an operation on `"/a/b/c"` to the `Some "/a/b"`
bucket (the longest matching prefix), `"/a/c"` to `Some "/a"`, and
`"/d"` to the default `none` bucket. -/
theorem c5_longest_prefix (now e1 e2 : Nat) (r1 r2 : Referral)
    (h1 : now < e1) (h2 : now < e2) :
    (routeBatch protoRead [(("/a").data, e1, r1), (("/a/b").data, e2, r2)] now
      [ToRead.resolveOp (("/a/b/c").data), ToRead.resolveOp (("/a/c").data),
       ToRead.resolveOp (("/d").data)]).1
      = [(some (("/a/b").data), [(0, ToRead.resolveOp (("/a/b/c").data))]),
         (some (("/a").data), [(1, ToRead.resolveOp (("/a/c").data))]),
         (none, [(2, ToRead.resolveOp (("/d").data))])] := by
  simp +decide [routeBatch, routeStep, routeOne, pushBucket, protoRead, h1, h2,
    List.enum, List.enumFrom, List.foldl, List.filter]

/-- Witness for C5 at `now = 0`, expiries `1`. -/
theorem c5_longest_prefix_witness :
    (0 < 1) ∧
    (routeBatch protoRead
      [(("/a").data, 1, ⟨("/a").data, 60⟩), (("/a/b").data, 1, ⟨("/a/b").data, 60⟩)] 0
      [ToRead.resolveOp (("/a/b/c").data), ToRead.resolveOp (("/a/c").data),
       ToRead.resolveOp (("/d").data)]).1
      = [(some (("/a/b").data), [(0, ToRead.resolveOp (("/a/b/c").data))]),
         (some (("/a").data), [(1, ToRead.resolveOp (("/a/c").data))]),
         (none, [(2, ToRead.resolveOp (("/d").data))])] :=
  ⟨by decide, c5_longest_prefix 0 1 1 ⟨("/a").data, 60⟩ ⟨("/a/b").data, 60⟩
    (by decide) (by decide)⟩

/-! ### C9: canonicalisation is idempotent -/

theorem splitEscAux_ne_nil (s cur : List Char) : splitEscAux s cur ≠ [] := by
  induction s generalizing cur with
  | nil => simp [splitEscAux]
  | cons c rest ih =>
    by_cases h : c = SEP ∧ ¬ oddEsc cur
    · simp only [splitEscAux, if_pos h]
      exact List.cons_ne_nil _ _
    · simp only [splitEscAux, if_neg h]
      exact ih _

theorem splitEscAux_getLast? (s cur : List Char) :
    (splitEscAux s cur).getLast? = some (stateAfter s cur).reverse := by
  induction s generalizing cur with
  | nil => simp [splitEscAux, stateAfter]
  | cons c rest ih =>
    by_cases h : c = SEP ∧ ¬ oddEsc cur
    · simp only [splitEscAux, stateAfter, if_pos h]
      obtain ⟨y, l, hyl⟩ := List.exists_cons_of_ne_nil (splitEscAux_ne_nil rest [])
      rw [hyl, List.getLast?_cons_cons, ← hyl, ih]
    · simp only [splitEscAux, stateAfter, if_neg h]
      exact ih _

theorem splitEscAux_append (a b cur : List Char) :
    splitEscAux (a ++ b) cur =
      (splitEscAux a cur).dropLast ++ splitEscAux b (stateAfter a cur) := by
  induction a generalizing cur with
  | nil => simp [splitEscAux, stateAfter]
  | cons c rest ih =>
    by_cases h : c = SEP ∧ ¬ oddEsc cur
    · simp only [List.cons_append, splitEscAux, stateAfter, if_pos h]
      obtain ⟨y, l, hyl⟩ := List.exists_cons_of_ne_nil (splitEscAux_ne_nil rest [])
      rw [List.append_eq, ih, hyl]
      simp [List.dropLast]
    · simp only [List.cons_append, splitEscAux, stateAfter, if_neg h]
      exact ih _

theorem stateAfter_of_atomic (q : List Char) (h : atomicPart q) :
    stateAfter q [] = q.reverse := by
  have h1 : splitEscAux q [] = [q] := h
  have h2 := splitEscAux_getLast? q []
  rw [h1] at h2
  simp only [List.getLast?_singleton, Option.some.injEq] at h2
  have h3 := congrArg List.reverse h2
  simp only [List.reverse_reverse] at h3
  exact h3.symm

theorem atomicPart_nil : atomicPart ([] : List Char) := rfl

theorem atomicPart_snoc (c : Char) (cur : List Char)
    (h : atomicPart cur.reverse) (hc : ¬ (c = SEP ∧ ¬ oddEsc cur)) :
    atomicPart (cur.reverse ++ [c]) := by
  have hs : stateAfter cur.reverse [] = cur := by
    rw [stateAfter_of_atomic _ h, List.reverse_reverse]
  have h1 : splitEscAux cur.reverse [] = [cur.reverse] := h
  show splitEscAux (cur.reverse ++ [c]) [] = [cur.reverse ++ [c]]
  rw [splitEscAux_append, h1, hs]
  simp only [List.dropLast_single, List.nil_append, splitEscAux]
  rw [if_neg hc]
  simp [splitEscAux]

theorem goodParts_splitEscAux (s cur : List Char) (h : atomicPart cur.reverse) :
    goodParts (splitEscAux s cur) := by
  induction s generalizing cur with
  | nil =>
    simp only [splitEscAux]
    exact ⟨h, Or.inl rfl, trivial⟩
  | cons c rest ih =>
    by_cases hc : c = SEP ∧ ¬ oddEsc cur
    · simp only [splitEscAux, if_pos hc]
      refine ⟨h, Or.inr ?_, ih [] atomicPart_nil⟩
      rw [List.reverse_reverse]
      simpa using hc.2
    · simp only [splitEscAux, if_neg hc]
      apply ih
      rw [List.reverse_cons]
      exact atomicPart_snoc c cur h hc

theorem goodParts_filter (ps : List (List Char)) (h : goodParts ps) :
    goodParts (ps.filter (fun p => p ≠ [])) := by
  induction ps with
  | nil => simpa using h
  | cons q rest ih =>
    obtain ⟨hq, hd, hrest⟩ := h
    by_cases hq0 : q = []
    · subst hq0
      simpa using ih hrest
    · rw [List.filter_cons_of_pos (by simpa using hq0)]
      refine ⟨hq, ?_, ih hrest⟩
      rcases hd with hd | hd
      · subst hd
        exact Or.inl rfl
      · exact Or.inr hd

theorem splitEsc_joinParts (qs : List (List Char)) (h : goodParts qs) (h0 : qs ≠ []) :
    splitEsc (joinParts qs) = qs := by
  induction qs with
  | nil => exact absurd rfl h0
  | cons q rest ih =>
    cases rest with
    | nil => exact h.1
    | cons q' rest' =>
      obtain ⟨hq, hd, hrest⟩ := h
      have hodd : oddEsc q.reverse = false := by
        rcases hd with hd | hd
        · exact absurd hd (by simp)
        · exact hd
      have h1 : splitEscAux q [] = [q] := hq
      show splitEscAux (q ++ SEP :: joinParts (q' :: rest')) [] = q :: q' :: rest'
      rw [splitEscAux_append, h1, stateAfter_of_atomic _ hq]
      simp only [List.dropLast_single, List.nil_append]
      simp only [splitEscAux, hodd, Bool.false_eq_true, not_false_eq_true,
        and_true, if_pos, List.reverse_reverse]
      exact congrArg (q :: ·) (ih hrest (by simp))


theorem splitEsc_sep_cons (t : List Char) : splitEsc (SEP :: t) = [] :: splitEsc t := by
  simp [splitEsc, splitEscAux, oddEsc]

theorem splitEscAux_head? (s cur : List Char) :
    ∃ u, (splitEscAux s cur).head? = some (cur.reverse ++ u) := by
  induction s generalizing cur with
  | nil => exact ⟨[], by simp [splitEscAux]⟩
  | cons c rest ih =>
    by_cases hc : c = SEP ∧ ¬ oddEsc cur
    · refine ⟨[], ?_⟩
      simp only [splitEscAux]
      rw [if_pos hc]
      simp
    · obtain ⟨u, hu⟩ := ih (c :: cur)
      refine ⟨c :: u, ?_⟩
      simp only [splitEscAux, if_neg hc]
      simpa using hu

theorem parts_filter_eq (s : List Char) :
    (parts s).filter (fun p => p ≠ []) = (splitEsc s).filter (fun p => p ≠ []) := by
  by_cases h1 : s = [SEP]
  · subst h1; decide
  · by_cases h2 : s.head? = some SEP
    · obtain ⟨c, t, rfl⟩ : ∃ c t, s = c :: t := by
        cases s with
        | nil => simp at h2
        | cons c t => exact ⟨c, t, rfl⟩
      have hcsep : c = SEP := by simpa using h2
      subst hcsep
      simp [parts, h1, splitEsc_sep_cons]
    · simp [parts, h1, h2]

theorem joinParts_cons_shape (q : List Char) (rest : List (List Char)) :
    ∃ w, joinParts (q :: rest) = q ++ w := by
  cases rest with
  | nil => exact ⟨[], by simp [joinParts]⟩
  | cons q' rest' => exact ⟨SEP :: joinParts (q' :: rest'), rfl⟩

theorem isCanonical_iff (s : List Char) : isCanonical s = true ↔ [] ∉ parts s := by
  simp [isCanonical]


theorem isCanonical_canonize (s : List Char) (hs : s ≠ []) :
    isCanonical (canonize s) = true := by
  rw [isCanonical_iff]
  cases s with
  | nil => exact absurd rfl hs
  | cons c t =>
    have hgood : goodParts ((splitEsc (c :: t)).filter (fun p => p ≠ [])) :=
      goodParts_filter _ (goodParts_splitEscAux _ _ atomicPart_nil)
    have hmem : ∀ p ∈ (splitEsc (c :: t)).filter (fun p => p ≠ []), p ≠ [] := by
      intro p hp
      simpa using (List.mem_filter.mp hp).2
    by_cases hc : c = SEP
    · subst hc
      rcases hq : (splitEsc (SEP :: t)).filter (fun p => p ≠ []) with _ | ⟨q, rest⟩
      · have hcan : canonize (SEP :: t) = [SEP] := by
          rw [canonize, if_neg (by simp), parts_filter_eq, hq]
          simp [joinParts]
        rw [hcan]
        decide
      · have hq_ne : q ≠ [] := hmem q (by rw [hq]; exact List.mem_cons_self _ _)
        obtain ⟨w, hw⟩ := joinParts_cons_shape q rest
        have hgood2 : goodParts (q :: rest) := hq ▸ hgood
        have hcan : canonize (SEP :: t) = SEP :: joinParts (q :: rest) := by
          rw [canonize, if_neg (by simp), parts_filter_eq, hq]
          simp
        have hj_ne : joinParts (q :: rest) ≠ [] := by
          rw [hw]
          intro hcon
          exact hq_ne (List.append_eq_nil.mp hcon).1
        have hparts : parts (SEP :: joinParts (q :: rest)) = q :: rest := by
          have hno : SEP :: joinParts (q :: rest) ≠ [SEP] := by
            intro hcon
            injection hcon with h1 h2
            exact hj_ne h2
          simp only [parts, if_neg hno, List.head?_cons, if_pos rfl, splitEsc_sep_cons,
            List.drop_succ_cons, List.drop_zero]
          exact splitEsc_joinParts _ hgood2 (List.cons_ne_nil _ _)
        rw [hcan, hparts]
        intro hmm
        have hin : ([] : List Char) ∈ (splitEsc (SEP :: t)).filter (fun p => p ≠ []) := by
          rw [hq]; exact hmm
        exact (hmem _ hin) rfl
    · have hsplit : splitEsc (c :: t) = splitEscAux t [c] := by
        simp only [splitEsc, splitEscAux]
        rw [if_neg (by tauto)]
      obtain ⟨y, l, hyl⟩ := List.exists_cons_of_ne_nil (splitEscAux_ne_nil t [c])
      obtain ⟨u, hu⟩ := splitEscAux_head? t [c]
      rw [hyl] at hu
      simp only [List.head?_cons, Option.some.injEq] at hu
      have hy : y = c :: u := by simpa using hu
      subst hy
      have hfil : (splitEsc (c :: t)).filter (fun p => p ≠ []) =
          (c :: u) :: l.filter (fun p => p ≠ []) := by
        rw [hsplit, hyl, List.filter_cons_of_pos (by simp)]
      obtain ⟨w, hw⟩ := joinParts_cons_shape (c :: u) (l.filter (fun p => p ≠ []))
      have hcan : canonize (c :: t) = joinParts ((c :: u) :: l.filter (fun p => p ≠ [])) := by
        rw [canonize, if_neg (by simp), parts_filter_eq, hfil]
        simp [hc]
      have hgood2 : goodParts ((c :: u) :: l.filter (fun p => p ≠ [])) := hfil ▸ hgood
      have hparts : parts (canonize (c :: t)) = (c :: u) :: l.filter (fun p => p ≠ []) := by
        rw [hcan, hw]
        simp only [List.cons_append]
        have h1 : (c :: (u ++ w)) ≠ [SEP] := by
          intro hcon
          injection hcon with h1a h1b
          exact hc h1a
        have h2 : ¬ ((c :: (u ++ w)).head? = some SEP) := by
          simp [hc]
        simp only [parts, if_neg h1, if_neg h2, List.drop_zero]
        rw [← List.cons_append, ← hw]
        exact splitEsc_joinParts _ hgood2 (List.cons_ne_nil _ _)
      rw [hparts]
      intro hmm
      have hin : ([] : List Char) ∈ (splitEsc (c :: t)).filter (fun p => p ≠ []) := by
        rw [hfil]; exact hmm
      exact (hmem _ hin) rfl

/-- C9: `Path::from` is idempotent: feeding the string of a constructed
path back through construction yields the same path; equivalently the
output of canonicalisation is itself canonical
(`isCanonical_canonize`). -/
theorem c9_pathFrom_idempotent (s : List Char) :
    pathFrom (pathFrom s) = pathFrom s := by
  by_cases hc : isCanonical s
  · have h1 : pathFrom s = s := by rw [pathFrom, if_pos hc]
    rw [h1]
    exact h1
  · have h1 : pathFrom s = canonize s := by rw [pathFrom, if_neg hc]
    by_cases hs : s = []
    · subst hs; decide
    · rw [h1, pathFrom, if_pos (isCanonical_canonize s hs)]

/-! ### C8: dirname/basename/append reconstruction -/

theorem takeWhileEsc_append_sep (u w : List Char) :
    (u ++ SEP :: w).takeWhile (fun c => decide (c = ESC)) =
      u.takeWhile (fun c => decide (c = ESC)) := by
  induction u with
  | nil => simp [List.takeWhile_cons, SEP, ESC]
  | cons a u ih =>
    by_cases ha : a = ESC
    · simp [List.takeWhile_cons, ha, ih]
    · simp [List.takeWhile_cons, ha]

theorem oddEsc_append_sep (u w : List Char) : oddEsc (u ++ SEP :: w) = oddEsc u := by
  simp only [oddEsc, takeWhileEsc_append_sep]

theorem drop_eq_cons_of_get? {s : List Char} {i : Nat} {a : Char}
    (h : s.get? i = some a) : s.drop i = a :: s.drop (i + 1) := by
  induction s generalizing i with
  | nil => simp at h
  | cons c rest ih =>
    cases i with
    | zero =>
      simp only [List.get?_cons_zero, Option.some.injEq] at h
      subst h
      simp
    | succ i =>
      simpa using ih (by simpa using h)

theorem rfindSepFrom_eq_some {s : List Char} {n i : Nat}
    (h : rfindSepFrom s n = some i) :
    i < n ∧ s.get? i = some SEP ∧ escapedAt s i = false ∧
      ∀ j, i < j → j < n → s.get? j = some SEP → escapedAt s j = true := by
  induction n with
  | zero => simp [rfindSepFrom] at h
  | succ n ih =>
    rw [rfindSepFrom] at h
    by_cases hc : s.get? n = some SEP ∧ ¬ escapedAt s n
    · rw [if_pos hc] at h
      injection h with h
      subst h
      refine ⟨Nat.lt_succ_self _, hc.1, by simpa using hc.2, ?_⟩
      intro j hj1 hj2
      omega
    · rw [if_neg hc] at h
      obtain ⟨h1, h2, h3, h4⟩ := ih h
      refine ⟨Nat.lt_succ_of_lt h1, h2, h3, ?_⟩
      intro j hj1 hj2 hsep
      rcases Nat.lt_succ_iff_lt_or_eq.mp hj2 with hj | hj
      · exact h4 j hj1 hj hsep
      · subst hj
        by_contra hesc
        exact hc ⟨hsep, hesc⟩

theorem splitEscAux_noSplit (b : List Char) :
    ∀ cur, (∀ j, j < b.length → b.get? j = some SEP →
      oddEsc ((b.take j).reverse ++ cur) = true) →
    splitEscAux b cur = [cur.reverse ++ b] := by
  induction b with
  | nil =>
    intro cur _
    simp [splitEscAux]
  | cons c rest ih =>
    intro cur h
    have hcond : ¬ (c = SEP ∧ ¬ oddEsc cur) := by
      rintro ⟨h1, h2⟩
      exact h2 (by simpa using h 0 (by simp) (by simp [h1]))
    simp only [splitEscAux, if_neg hcond]
    have hrec := ih (c :: cur) (by
      intro j hj hsep
      have := h (j + 1) (by simpa using hj) (by simpa using hsep)
      simpa [List.append_assoc] using this)
    rw [hrec]
    simp


theorem oddEsc_stateAfter (d : List Char) :
    ∀ cur, oddEsc (stateAfter d cur) = oddEsc (d.reverse ++ cur) := by
  induction d with
  | nil => intro cur; simp [stateAfter]
  | cons c rest ih =>
    intro cur
    by_cases h : c = SEP ∧ ¬ oddEsc cur
    · simp only [stateAfter, if_pos h, ih, List.append_nil, List.reverse_cons,
        List.append_assoc, List.singleton_append]
      rw [h.1, oddEsc_append_sep]
    · simp only [stateAfter, if_neg h, ih, List.reverse_cons, List.append_assoc,
        List.singleton_append]

theorem splitEsc_decomp (d b : List Char) (hd : oddEsc d.reverse = false)
    (hb : atomicPart b) :
    splitEsc (d ++ SEP :: b) = splitEsc d ++ [b] := by
  show splitEscAux (d ++ SEP :: b) [] = splitEscAux d [] ++ [b]
  rw [splitEscAux_append]
  have hst : oddEsc (stateAfter d []) = false := by
    rw [oddEsc_stateAfter, List.append_nil, hd]
  have hb1 : splitEscAux b [] = [b] := hb
  simp only [splitEscAux, hst, Bool.false_eq_true, not_false_eq_true, and_true,
    if_pos, hb1]
  have hlast := splitEscAux_getLast? d []
  have happ := List.dropLast_append_getLast? _ hlast
  rw [← happ]
  simp


theorem parts_not_sep (s : List Char) (h : ¬ s.head? = some SEP) :
    parts s = splitEsc s := by
  have h1 : s ≠ [SEP] := by
    intro hcon
    subst hcon
    exact h rfl
  simp only [parts, if_neg h1, if_neg h, List.drop_zero]

theorem isCanonical_decomp (d b : List Char) (hdne : d ≠ [])
    (hcp : isCanonical (d ++ SEP :: b) = true)
    (hsplit : splitEsc (d ++ SEP :: b) = splitEsc d ++ [b]) :
    isCanonical d = true ∧ b ≠ [] := by
  rw [isCanonical_iff] at hcp
  rw [isCanonical_iff]
  obtain ⟨c, d', rfl⟩ : ∃ c d', d = c :: d' := by
    cases d with
    | nil => exact absurd rfl hdne
    | cons c d' => exact ⟨c, d', rfl⟩
  by_cases hch : c = SEP
  · subst hch
    have h1 : (SEP :: d') ++ SEP :: b ≠ [SEP] := by
      intro hcon
      have hl := congrArg List.length hcon
      simp at hl
    have hparts : parts ((SEP :: d') ++ SEP :: b) = splitEsc d' ++ [b] := by
      have hh : ((SEP :: d') ++ SEP :: b).head? = some SEP := by simp
      simp only [parts, if_neg h1, if_pos hh]
      rw [hsplit, splitEsc_sep_cons]
      simp
    rw [hparts] at hcp
    simp only [List.mem_append, List.mem_singleton, not_or] at hcp
    have hd'ne : d' ≠ [] := by
      intro hcon
      subst hcon
      exact hcp.1 (by simp [splitEsc, splitEscAux])
    have h2 : (SEP :: d') ≠ [SEP] := by
      intro hcon
      injection hcon with h3 h4
      exact hd'ne h4
    have hpd : parts (SEP :: d') = splitEsc d' := by
      simp only [parts, if_neg h2, List.head?_cons, splitEsc_sep_cons]
      simp
    rw [hpd]
    exact ⟨hcp.1, fun hb => hcp.2 hb.symm⟩
  · have hh : ¬ ((c :: d') ++ SEP :: b).head? = some SEP := by
      simp only [List.cons_append, List.head?_cons, Option.some.injEq]
      exact hch
    have hparts : parts ((c :: d') ++ SEP :: b) = splitEsc (c :: d') ++ [b] := by
      rw [parts_not_sep _ hh, hsplit]
    rw [hparts] at hcp
    simp only [List.mem_append, List.mem_singleton, not_or] at hcp
    have hh2 : ¬ (c :: d').head? = some SEP := by
      simp only [List.head?_cons, Option.some.injEq]
      exact hch
    rw [parts_not_sep _ hh2]
    exact ⟨hcp.1, fun hb => hcp.2 hb.symm⟩


theorem dirname_eq_some {p d : List Char} (h : dirname p = some d) :
    ∃ i, rfindSep p = some i ∧ i ≠ 0 ∧ d = p.take i := by
  unfold dirname at h
  cases hrf : rfindSep p with
  | none => rw [hrf] at h; simp at h
  | some i =>
    rw [hrf] at h
    by_cases hi : i = 0
    · simp [hi] at h
    · refine ⟨i, rfl, hi, ?_⟩
      simp only [Option.bind_eq_bind, Option.some_bind, if_neg hi,
        Option.some.injEq] at h
      exact h.symm

/-- C8, amended: for every canonical path `p` other than `"/"` and `""`
for which `dirname p` and `basename p` are both defined (i.e. `p` has at
least two levels), appending `basename p` to `dirname p` reconstructs
`p`. -/
theorem c8_reconstruction (p d b : List Char)
    (hc : isCanonical p = true) (hp1 : p ≠ [SEP]) (hp0 : p ≠ [])
    (hd : dirname p = some d) (hb : basename p = some b) :
    append (pathFrom d) b = p := by
  obtain ⟨i, hrf, hi0, hdtake⟩ := dirname_eq_some hd
  have hrf' : rfindSepFrom p p.length = some i := hrf
  obtain ⟨hlt, hget, hesc, hmax⟩ := rfindSepFrom_eq_some hrf'
  have hlen2 : 1 < p.length := by omega
  have hb' : b = p.drop (i + 1) := by
    unfold basename at hb
    rw [hrf] at hb
    simp only [show ¬ p.length ≤ 1 by omega, if_false, ite_false, if_neg,
      not_false_eq_true, Option.some.injEq] at hb
    exact hb.symm
  have hdec : p = d ++ SEP :: b := by
    rw [hdtake, hb']
    conv_lhs => rw [← List.take_append_drop i p]
    congr 1
    exact drop_eq_cons_of_get? hget
  have hdlen : d.length = i := by
    rw [hdtake]
    simp only [List.length_take]
    omega
  have hdne : d ≠ [] := by
    intro hcon
    rw [hcon] at hdlen
    simp at hdlen
    omega
  have hplen : p.length = i + 1 + b.length := by
    rw [hdec]
    simp [hdlen]
    omega
  have hoddd : oddEsc d.reverse = false := by
    have h1 : escapedAt p i = oddEsc ((p.take i).reverse) := rfl
    rw [← hdtake] at h1
    rw [← h1, hesc]
  have hatomic : atomicPart b := by
    have hcond : ∀ j, j < b.length → b.get? j = some SEP →
        oddEsc ((b.take j).reverse ++ []) = true := by
      intro j hj hsep
      have hgetp : p.get? (i + 1 + j) = some SEP := by
        rw [hdec, List.get?_append_right (by omega)]
        have heq : i + 1 + j - d.length = j + 1 := by omega
        rw [heq]
        simpa using hsep
      have hescp := hmax (i + 1 + j) (by omega) (by omega) hgetp
      have htk : p.take (i + 1 + j) = d ++ SEP :: b.take j := by
        rw [hdec, List.take_append_eq_append_take,
          List.take_of_length_le (by omega)]
        congr 1
        have heq : i + 1 + j - d.length = j + 1 := by omega
        rw [heq]
        simp
      unfold escapedAt at hescp
      rw [htk, List.reverse_append, List.reverse_cons, List.append_assoc,
        List.singleton_append, oddEsc_append_sep] at hescp
      simpa using hescp
    have hns := splitEscAux_noSplit b [] hcond
    show splitEsc b = [b]
    show splitEscAux b [] = [b]
    rw [hns]
    simp
  have hsplit := splitEsc_decomp d b hoddd hatomic
  obtain ⟨hcd, hbne⟩ := isCanonical_decomp d b hdne (hdec ▸ hc) hsplit
  have hpd : pathFrom d = d := by
    rw [pathFrom, if_pos hcd]
  rw [hpd, append, if_neg hbne, ← hdec, pathFrom, if_pos hc]


/-- C8, counterexample: `"/foo"` is canonical, differs from `"/"` and
`""`, yet `dirname "/foo"` is `none`, so no reconstruction through
`dirname`/`basename` exists — the claim fails for single-component
canonical paths. -/
theorem c8_counterexample :
    isCanonical (("/foo").data) = true ∧ ("/foo").data ≠ [SEP] ∧
    ("/foo").data ≠ ([] : List Char) ∧ dirname (("/foo").data) = none ∧
    ¬ ∃ d b, dirname (("/foo").data) = some d ∧ basename (("/foo").data) = some b ∧
      append (pathFrom d) b = ("/foo").data := by
  refine ⟨by decide, by decide, by decide, by decide, ?_⟩
  rintro ⟨d, b, hd, -, -⟩
  rw [show dirname (("/foo").data) = none by decide] at hd
  exact Option.noConfusion hd

/-- Witness for C8 at `p = "/a/b"`. -/
theorem c8_reconstruction_witness :
    append (pathFrom (("/a").data)) (("b").data) = ("/a/b").data :=
  c8_reconstruction (("/a/b").data) (("/a").data) (("b").data)
    (by decide) (by decide) (by decide) (by decide) (by decide)

/-! ### Multiplexer helper lemmas -/

section Mux

variable {T F : Type}

theorem pushBucket_bind_perm {K A : Type} [DecidableEq K]
    (bs : List (K × List A)) (k : K) (v : A) :
    ((pushBucket bs k v).bind Prod.snd).Perm (bs.bind Prod.snd ++ [v]) := by
  induction bs with
  | nil => simp [pushBucket]
  | cons b rest ih =>
    obtain ⟨k', vs⟩ := b
    by_cases hk : k' = k
    · rw [pushBucket, if_pos hk]
      simp only [List.cons_bind, List.append_assoc]
      exact List.Perm.append_left vs
        ((List.perm_append_singleton v (rest.bind Prod.snd)).symm)
    · rw [pushBucket, if_neg hk]
      simp only [List.cons_bind, List.append_assoc]
      exact List.Perm.append_left vs ih

theorem routeFold_bind_perm (proto : Proto T F) (cached : Cache) (now : Nat) :
    ∀ (l : List (Nat × T)) (bs : List (Option PathStr × List (Nat × T)))
      (gcs : List PathStr),
    (((l.foldl (routeStep proto cached now) (bs, gcs))).1.bind Prod.snd).Perm
      (bs.bind Prod.snd ++ l) := by
  intro l
  induction l with
  | nil => intro bs gcs; simp
  | cons it l ih =>
    intro bs gcs
    rw [List.foldl_cons]
    have hstep : ∃ k gcs', routeStep proto cached now (bs, gcs) it =
        (pushBucket bs k it, gcs') := by
      rw [routeStep]
      cases proto.path it.2 with
      | none => exact ⟨none, gcs, rfl⟩
      | some q => exact ⟨_, _, rfl⟩
    obtain ⟨k, gcs', hk⟩ := hstep
    rw [hk]
    refine (ih _ _).trans ?_
    refine (List.Perm.append_right l (pushBucket_bind_perm bs k it)).trans ?_
    rw [List.append_assoc, List.singleton_append]

theorem routeBatch_bind_perm (proto : Proto T F) (cached : Cache) (now : Nat)
    (batch : List T) :
    ((routeBatch proto cached now batch).1.bind Prod.snd).Perm batch.enum := by
  have h := routeFold_bind_perm proto cached now batch.enum [] []
  simpa [routeBatch] using h

/-! ### Reply collection and the referral loop -/

theorem collectFold_flag_mono (proto : Proto T F) (addNow : Nat) :
    ∀ (l : List (Nat × F)) (cached : Cache) (fin : List (Nat × F)),
    (l.foldl (collectStep proto addNow) (cached, fin, true)).2.2 = true := by
  intro l
  induction l with
  | nil => intro cached fin; rfl
  | cons it l ih =>
    intro cached fin
    rw [List.foldl_cons, collectStep]
    cases proto.refOf it.2 with
    | some ref => exact ih _ _
    | none => exact ih _ _

theorem collectFold_false (proto : Proto T F) (addNow : Nat) :
    ∀ (l : List (Nat × F)) (cached : Cache) (fin : List (Nat × F)) (flag : Bool),
    (l.foldl (collectStep proto addNow) (cached, fin, flag)).2.2 = false →
    flag = false ∧
      l.foldl (collectStep proto addNow) (cached, fin, flag) =
        (cached, fin ++ l, false) ∧
      ∀ it ∈ l, proto.refOf it.2 = none := by
  intro l
  induction l with
  | nil =>
    intro cached fin flag h
    simp only [List.foldl_nil] at h ⊢
    subst h
    simp
  | cons it l ih =>
    intro cached fin flag h
    rw [List.foldl_cons] at h ⊢
    cases hro : proto.refOf it.2 with
    | some ref =>
      rw [collectStep, hro] at h
      rw [collectFold_flag_mono] at h
      exact absurd h (by simp)
    | none =>
      rw [collectStep, hro] at h ⊢
      obtain ⟨h1, h2, h3⟩ := ih _ _ _ h
      subst h1
      refine ⟨rfl, ?_, ?_⟩
      · rw [h2]
        simp
      · intro x hx
        rcases List.mem_cons.mp hx with hx | hx
        · subst hx; exact hro
        · exact h3 x hx

theorem processReplies_ok_false (proto : Proto T F) (addNow : Nat) :
    ∀ (reps : List (Except String (List (Nat × F)))) (cached : Cache)
      (fin : List (Nat × F)) (flag : Bool) (cached' : Cache) (fin' : List (Nat × F)),
    processReplies proto addNow reps cached fin flag = (cached', .ok (fin', false)) →
    flag = false ∧ cached' = cached ∧
      ∃ outs : List (List (Nat × F)), reps = outs.map Except.ok ∧
        fin' = fin ++ outs.join ∧ ∀ it ∈ outs.join, proto.refOf it.2 = none := by
  intro reps
  induction reps with
  | nil =>
    intro cached fin flag cached' fin' h
    rw [processReplies] at h
    injection h with h1 h2
    injection h2 with h2
    injection h2 with h2a h2b
    subst h1 h2a h2b
    exact ⟨rfl, rfl, [], rfl, by simp, by simp⟩
  | cons r rest ih =>
    intro cached fin flag cached' fin' h
    cases r with
    | error e =>
      rw [processReplies] at h
      injection h with h1 h2
      exact absurd h2 (by simp)
    | ok rl =>
      rw [processReplies] at h
      obtain ⟨hflag2, hcached, outs, hreps, hfin, hterm⟩ := ih _ _ _ _ _ h
      have hcf := collectFold_false proto addNow rl cached fin flag hflag2
      obtain ⟨hflag, heq, hterm2⟩ := hcf
      rw [heq] at h hcached hfin
      refine ⟨hflag, hcached, rl :: outs, by rw [hreps]; rfl, ?_, ?_⟩
      · rw [hfin]
        simp
      · intro x hx
        rcases List.mem_join.mp hx with ⟨lx, hlx, hxin⟩
        rcases List.mem_cons.mp hlx with hlx | hlx
        · exact hterm2 x (hlx ▸ hxin)
        · exact hterm x (List.mem_join.mpr ⟨lx, hlx, hxin⟩)

theorem mapOk_mem {A B E : Type} (f : A → Except E B) :
    ∀ (bs : List A) (outs : List B), bs.map f = outs.map Except.ok →
    ∀ out ∈ outs, ∃ b ∈ bs, f b = Except.ok out := by
  intro bs
  induction bs with
  | nil =>
    intro outs h out hout
    cases outs with
    | nil => simp at hout
    | cons o os => simp at h
  | cons b bs ih =>
    intro outs h out hout
    cases outs with
    | nil => simp at hout
    | cons o os =>
      simp only [List.map_cons, List.cons.injEq] at h
      rcases List.mem_cons.mp hout with rfl | hout
      · exact ⟨b, List.mem_cons_self _ _, h.1⟩
      · obtain ⟨b', hb', hf⟩ := ih os h.2 out hout
        exact ⟨b', List.mem_cons_of_mem _ hb', hf⟩

theorem outs_ids_perm (env : Env T F) (hconn : ConnContract env) (iter : Nat) :
    ∀ (buckets : Dispatch T) (outs : List (List (Nat × F))),
    buckets.map (fun b => env.conn iter b.1 b.2) = outs.map Except.ok →
    ((outs.join).map Prod.fst).Perm ((buckets.bind Prod.snd).map Prod.fst) := by
  intro buckets
  induction buckets with
  | nil =>
    intro outs h
    cases outs with
    | nil => simp
    | cons o os => simp at h
  | cons b bs ih =>
    intro outs h
    cases outs with
    | nil => simp at h
    | cons o os =>
      simp only [List.map_cons, List.cons.injEq] at h
      have hperm := hconn iter b.1 b.2 o h.1
      have hrest := ih os h.2
      simp only [List.join_cons, List.cons_bind, List.map_append]
      exact hperm.append hrest

theorem sorted_ids_get (n : Nat) (S : List (Nat × F))
    (hsort : S.Pairwise (fun a b => a.1 ≤ b.1))
    (hids : (S.map Prod.fst).Perm (List.range n)) :
    ∀ i, i < n → ∃ f, S.get? i = some (i, f) := by
  have hmapsort : (S.map Prod.fst).Pairwise (fun a b => a ≤ b) := by
    rw [List.pairwise_map]
    exact hsort
  have hrangesort : (List.range n).Pairwise (fun a b : Nat => a ≤ b) :=
    (List.pairwise_lt_range n).imp (fun h => Nat.le_of_lt h)
  have hrange : S.map Prod.fst = List.range n :=
    List.eq_of_perm_of_sorted hids hmapsort hrangesort
  intro i hi
  have hg : (S.map Prod.fst).get? i = some i := by
    rw [hrange, List.get?_range hi]
  rw [List.get?_map] at hg
  cases hS : S.get? i with
  | none => rw [hS] at hg; simp at hg
  | some x =>
    rw [hS] at hg
    simp only [Option.map_some', Option.some.injEq] at hg
    refine ⟨x.2, ?_⟩
    rw [← hg]

theorem mem_enumFrom_get? {A : Type} :
    ∀ (l : List A) (j i : Nat) (t : A), (i, t) ∈ l.enumFrom j →
      j ≤ i ∧ l.get? (i - j) = some t := by
  intro l
  induction l with
  | nil => intro j i t h; simp at h
  | cons a l ih =>
    intro j i t h
    rw [List.enumFrom_cons] at h
    rcases List.mem_cons.mp h with heq | hmem
    · injection heq with h1 h2
      subst h1
      subst h2
      simp
    · obtain ⟨hle, hget⟩ := ih (j + 1) i t hmem
      refine ⟨by omega, ?_⟩
      have heq : i - j = (i - (j + 1)) + 1 := by omega
      rw [heq, List.get?_cons_succ, hget]

theorem mem_enum_get? {A : Type} (l : List A) (i : Nat) (t : A)
    (h : (i, t) ∈ l.enum) : l.get? i = some t := by
  have := mem_enumFrom_get? l 0 i t h
  simpa using this.2

theorem sendIter_ok_false (env : Env T F) (hconn : ConnContract env)
    (batch : List T) (st : MuxState) (referrals : Nat)
    (buckets : Dispatch T) (st₂ : MuxState) (fin : List (Nat × F))
    (h : sendIter env batch st referrals = (buckets, st₂, .ok (fin, false))) :
    (∀ it ∈ fin, env.proto.refOf it.2 = none) ∧
    ((fin.map Prod.fst).Perm (List.range batch.length)) ∧
    (∀ i f, (i, f) ∈ fin → ∃ k sb out, (k, sb) ∈ buckets ∧
        env.conn referrals k sb = .ok out ∧ (i, f) ∈ out) ∧
    ((buckets.bind Prod.snd).Perm batch.enum) := by
  rw [sendIter] at h
  split at h
  · exact absurd (congrArg (fun x => x.2.2) h) (by simp)
  · split at h
    · exact absurd (congrArg (fun x => x.2.2) h) (by simp)
    · rename_i byPath₁ heq cached₂ fin' flag heq2
      injection h with hb h
      injection h with hst h
      injection h with h
      injection h with hfin hflag
      subst hb
      subst hfin
      subst hflag
      obtain ⟨-, -, outs, houts, hfin, hterm⟩ :=
        processReplies_ok_false env.proto (env.addClock referrals) _ _ _ _ _ _ heq2
      have hroute := routeBatch_bind_perm env.proto
        (overflowCheck st).cached (env.routeClock referrals) batch
      refine ⟨?_, ?_, ?_, hroute⟩
      · intro it hit
        exact hterm it (by simpa [hfin] using hit)
      · have hids := outs_ids_perm env hconn referrals _ outs houts
        have h2 : ((routeBatch env.proto (overflowCheck st).cached
            (env.routeClock referrals) batch).1.bind Prod.snd).map Prod.fst
            |>.Perm (batch.enum.map Prod.fst) := hroute.map Prod.fst
        rw [List.enum_map_fst] at h2
        rw [hfin]
        simpa using hids.trans h2
      · intro i f hif
        rw [hfin] at hif
        simp only [List.nil_append] at hif
        obtain ⟨out, hout, hin⟩ := List.mem_join.mp hif
        obtain ⟨b, hb, hfb⟩ := mapOk_mem _ _ outs houts out hout
        exact ⟨b.1, b.2, out, by simpa using hb, hfb, hin⟩

theorem c2core (env : Env T F) (hconn : ConnContract env) (batch : List T)
    (referrals : Nat) (buckets : Dispatch T) (fin : List (Nat × F)) (v : List F)
    (hv : v = (fin.insertionSort (fun a b => a.1 ≤ b.1)).map Prod.snd)
    (hterm : ∀ it ∈ fin, env.proto.refOf it.2 = none)
    (hids : (fin.map Prod.fst).Perm (List.range batch.length))
    (hprov : ∀ i f, (i, f) ∈ fin → ∃ k sb out, (k, sb) ∈ buckets ∧
        env.conn referrals k sb = .ok out ∧ (i, f) ∈ out)
    (hroute : (buckets.bind Prod.snd).Perm batch.enum) :
    v.length = batch.length ∧ (∀ f ∈ v, env.proto.refOf f = none) ∧
    ∀ i, i < batch.length → ∃ t f k sb out,
      batch.get? i = some t ∧ v.get? i = some f ∧
      (k, sb) ∈ buckets ∧ (i, t) ∈ sb ∧
      env.conn referrals k sb = .ok out ∧ (i, f) ∈ out := by
  have hSperm : (fin.insertionSort (fun a b => a.1 ≤ b.1)).Perm fin :=
    List.perm_insertionSort _ fin
  have hSsort : (fin.insertionSort (fun a b => a.1 ≤ b.1)).Pairwise
      (fun a b => a.1 ≤ b.1) :=
    List.sorted_insertionSort _ fin
  have hSids : ((fin.insertionSort (fun a b => a.1 ≤ b.1)).map Prod.fst).Perm
      (List.range batch.length) :=
    (hSperm.map Prod.fst).trans hids
  have hget := sorted_ids_get batch.length _ hSsort hSids
  have hlen : v.length = batch.length := by
    rw [hv]
    have := hSids.length_eq
    simpa using this
  refine ⟨hlen, ?_, ?_⟩
  · intro f hf
    rw [hv] at hf
    obtain ⟨x, hx, hxf⟩ := List.mem_map.mp hf
    have hxfin : x ∈ fin := hSperm.mem_iff.mp hx
    exact hxf ▸ hterm x hxfin
  · intro i hi
    obtain ⟨f, hSi⟩ := hget i hi
    have hvf : v.get? i = some f := by
      rw [hv, List.get?_map, hSi]
      rfl
    have hifS : (i, f) ∈ fin.insertionSort (fun a b => a.1 ≤ b.1) :=
      List.get?_mem hSi
    have hiffin : (i, f) ∈ fin := hSperm.mem_iff.mp hifS
    obtain ⟨k, sb, out, hk, hc, hio⟩ := hprov i f hiffin
    have hiout : i ∈ out.map Prod.fst := List.mem_map.mpr ⟨(i, f), hio, rfl⟩
    have hisb : i ∈ sb.map Prod.fst := (hconn referrals k sb out hc).mem_iff.mp hiout
    obtain ⟨x, hmem, hfst⟩ := List.mem_map.mp hisb
    obtain ⟨i', t⟩ := x
    simp only at hfst
    subst hfst
    have hbind : (i', t) ∈ buckets.bind Prod.snd :=
      List.mem_bind.mpr ⟨(k, sb), hk, hmem⟩
    have henum : (i', t) ∈ batch.enum := hroute.mem_iff.mp hbind
    have hbt : batch.get? i' = some t := mem_enum_get? batch i' t henum
    exact ⟨t, f, k, sb, out, hbt, hvf, hk, hmem, hc, hio⟩

theorem sendLoop_ok (env : Env T F) (hconn : ConnContract env) (batch : List T) :
    ∀ (fuel referrals : Nat) (st : MuxState) (v : List F) (trace : List (Dispatch T))
      (stf : MuxState),
    sendLoop env batch referrals fuel st = (.ok v, trace, stf) →
    v.length = batch.length ∧
    (∀ f ∈ v, env.proto.refOf f = none) ∧
    ∃ D, trace.getLast? = some D ∧
      (D.bind Prod.snd).Perm batch.enum ∧
      ∀ i, i < batch.length → ∃ t f k sb out,
        batch.get? i = some t ∧ v.get? i = some f ∧
        (k, sb) ∈ D ∧ (i, t) ∈ sb ∧
        env.conn (referrals + trace.length - 1) k sb = .ok out ∧ (i, f) ∈ out := by
  intro fuel
  induction fuel with
  | zero =>
    intro referrals st v trace stf hl
    rw [sendLoop] at hl
    rcases hI : sendIter env batch st referrals with ⟨buckets, st₂, out⟩
    rw [hI] at hl
    simp only at hl
    split at hl
    · exact absurd (congrArg (fun x => x.1) hl) (by simp)
    · rename_i fin flag
      split at hl
      · rename_i hflag
        split at hl
        · exact absurd (congrArg (fun x => x.1) hl) (by simp)
        · exact absurd (congrArg (fun x => x.1) hl) (by simp)
      · rename_i hflag
        have hflag2 : flag = false := by simpa using hflag
        subst hflag2
        injection hl with h1 hl
        injection h1 with h1
        injection hl with h2 h3
        obtain ⟨hterm, hids, hprov, hroute⟩ :=
          sendIter_ok_false env hconn batch st referrals buckets st₂ fin hI
        obtain ⟨hlen, hterm2, hcore⟩ :=
          c2core env hconn batch referrals buckets fin v h1.symm hterm hids hprov hroute
        refine ⟨hlen, hterm2, buckets, ?_, hroute, ?_⟩
        · rw [← h2]
          rfl
        · rw [← h2]
          simpa using hcore
  | succ n ih =>
    intro referrals st v trace stf hl
    rw [sendLoop] at hl
    rcases hI : sendIter env batch st referrals with ⟨buckets, st₂, out⟩
    rw [hI] at hl
    simp only at hl
    split at hl
    · exact absurd (congrArg (fun x => x.1) hl) (by simp)
    · rename_i fin flag
      split at hl
      · rename_i hflag
        split at hl
        · exact absurd (congrArg (fun x => x.1) hl) (by simp)
        · rcases hr : sendLoop env batch (referrals + 1) n st₂ with ⟨r1, r2, r3⟩
          rw [hr] at hl
          simp only at hl
          injection hl with h1 hl
          injection hl with h2 h3
          obtain ⟨hlen, hterm2, D, hD, hDperm, hcore⟩ :=
            ih (referrals + 1) st₂ v r2 r3 (by rw [hr, h1])
          obtain ⟨y, l2, hyl⟩ := List.exists_cons_of_ne_nil
            (show r2 ≠ [] by intro hcon; rw [hcon] at hD; simp at hD)
          refine ⟨hlen, hterm2, D, ?_, hDperm, ?_⟩
          · rw [← h2, hyl, List.getLast?_cons_cons, ← hyl, hD]
          · rw [← h2]
            simp only [List.length_cons]
            have hidx : referrals + (r2.length + 1) - 1 =
                referrals + 1 + r2.length - 1 := by omega
            rw [hidx]
            exact hcore
      · rename_i hflag
        have hflag2 : flag = false := by simpa using hflag
        subst hflag2
        injection hl with h1 hl
        injection h1 with h1
        injection hl with h2 h3
        obtain ⟨hterm, hids, hprov, hroute⟩ :=
          sendIter_ok_false env hconn batch st referrals buckets st₂ fin hI
        obtain ⟨hlen, hterm2, hcore⟩ :=
          c2core env hconn batch referrals buckets fin v h1.symm hterm hids hprov hroute
        refine ⟨hlen, hterm2, buckets, ?_, hroute, ?_⟩
        · rw [← h2]
          rfl
        · rw [← h2]
          simpa using hcore

end Mux

section Claims

variable {T F : Type}

/-- C2: under the backend contract (each `Ok` reply batch holds exactly
the request indices of its sub-batch), a send that returns `Ok v` yields
as many replies as the batch has operations, none of them a referral,
and `v[i]` is the backend reply paired with index `i` for the sub-batch
containing `(i, batch[i])` in the final dispatch round. -/
theorem c2_send_result_contract {T F : Type} (env : Env T F) (st : MuxState) (batch : List T)
    (hconn : ConnContract env) (v : List F) (trace : List (Dispatch T))
    (stf : MuxState) (h : send env st batch = (.ok v, trace, stf)) :
    v.length = batch.length ∧
    (∀ f ∈ v, env.proto.refOf f = none) ∧
    ∃ D, trace.getLast? = some D ∧
      ∀ i, i < batch.length → ∃ t f k sb out,
        batch.get? i = some t ∧ v.get? i = some f ∧
        (k, sb) ∈ D ∧ (i, t) ∈ sb ∧
        env.conn (trace.length - 1) k sb = .ok out ∧ (i, f) ∈ out := by
  obtain ⟨hlen, hterm, D, hD, hDperm, hcore⟩ :=
    sendLoop_ok env hconn batch (MAX_REFERRALS + 1) 0 st v trace stf h
  refine ⟨hlen, hterm, D, hD, ?_⟩
  simpa using hcore

theorem connResolved_contract : ConnContract envResolved := by
  intro iter k sb out h
  injection h with h
  rw [← h, List.map_map]
  have heq : (Prod.fst ∘ fun it : Nat × ToRead => (it.1, FromRead.resolved it.1)) =
      Prod.fst := rfl
  rw [heq]

/-- Witness for C2: a one-element batch against a backend that resolves
everything. -/
theorem c2_send_result_contract_witness :
    ([FromRead.resolved 0] : List FromRead).length =
      [ToRead.resolveOp (("/a").data)].length ∧
    (∀ f ∈ ([FromRead.resolved 0] : List FromRead), protoRead.refOf f = none) :=
  let h := c2_send_result_contract envResolved st0 [ToRead.resolveOp (("/a").data)]
    connResolved_contract [FromRead.resolved 0]
    [[(none, [(0, ToRead.resolveOp (("/a").data))])]] st0 (by rfl)
  ⟨h.1, h.2.1⟩

theorem sendIter_no_depth (env : Env T F) (batch : List T) (st : MuxState)
    (referrals : Nat) (m : String) :
    (sendIter env batch st referrals).2.2 ≠ .error (.depth m) := by
  rw [sendIter]
  split
  · simp
  · split
    · simp
    · simp

theorem sendLoop_bound_msg (env : Env T F) (batch : List T) :
    ∀ (fuel referrals : Nat) (st : MuxState),
    ((sendLoop env batch referrals fuel st).2.1.length ≤
        MAX_REFERRALS + 1 - referrals ∨
      (sendLoop env batch referrals fuel st).2.1.length = 1) ∧
    (∀ m, (sendLoop env batch referrals fuel st).1 = .error (.depth m) →
      m = "maximum referral depth 128 reached, giving up") := by
  intro fuel
  induction fuel with
  | zero =>
    intro referrals st
    rw [sendLoop]
    rcases hI : sendIter env batch st referrals with ⟨buckets, st₂, out⟩
    have hnd := sendIter_no_depth env batch st referrals
    rw [hI] at hnd
    simp only at hnd
    simp only
    split
    · rename_i e
      refine ⟨Or.inr rfl, ?_⟩
      intro m hm
      injection hm with hm
      exact absurd (show Except.error e = Except.error (SendErr.depth m) by rw [hm])
        (hnd m)
    · rename_i fin flag
      split
      · split
        · exact ⟨Or.inr rfl, fun m hm => by
            injection hm with hm
            injection hm with hm
            exact hm.symm⟩
        · exact ⟨Or.inr rfl, fun m hm => by
            injection hm with hm
            injection hm with hm
            exact hm.symm⟩
      · refine ⟨Or.inr rfl, ?_⟩
        intro m hm
        exact Except.noConfusion hm
  | succ n ih =>
    intro referrals st
    rw [sendLoop]
    rcases hI : sendIter env batch st referrals with ⟨buckets, st₂, out⟩
    have hnd := sendIter_no_depth env batch st referrals
    rw [hI] at hnd
    simp only at hnd
    simp only
    split
    · rename_i e
      refine ⟨Or.inr rfl, ?_⟩
      intro m hm
      injection hm with hm
      exact absurd (show Except.error e = Except.error (SendErr.depth m) by rw [hm])
        (hnd m)
    · rename_i fin flag
      split
      · rename_i hflag
        split
        · exact ⟨Or.inr rfl, fun m hm => by
            injection hm with hm
            injection hm with hm
            exact hm.symm⟩
        · rename_i hd
          obtain ⟨hb, hmsg⟩ := ih (referrals + 1) st₂
          constructor
          · left
            simp only [List.length_cons]
            have hmx : MAX_REFERRALS = 128 := rfl
            rcases hb with hb | hb <;> omega
          · intro m hm
            exact hmsg m hm
      · refine ⟨Or.inr rfl, ?_⟩
        intro m hm
        exact Except.noConfusion hm

/-- C3: a send performs at most `MAX_REFERRALS + 1` iterations in total,
i.e. at most `MAX_REFERRALS` (128) referral-follow iterations beyond the
first; and when the budget is exceeded the whole call fails with the
deterministic message "maximum referral depth 128 reached, giving up",
which contains "maximum referral depth 128 reached". -/
theorem c3_depth_limit {T F : Type} (env : Env T F) (st : MuxState) (batch : List T) :
    (send env st batch).2.1.length ≤ MAX_REFERRALS + 1 ∧
    ∀ m, (send env st batch).1 = .error (.depth m) →
      m = "maximum referral depth 128 reached, giving up" ∧
      ("maximum referral depth 128 reached").data <:+: m.data := by
  obtain ⟨hb, hmsg⟩ := sendLoop_bound_msg env batch (MAX_REFERRALS + 1) 0 st
  simp only [send]
  constructor
  · have hmx : MAX_REFERRALS = 128 := rfl
    rcases hb with hb | hb <;> omega
  · intro m hm
    have heqm := hmsg m hm
    subst heqm
    refine ⟨rfl, [], (", giving up").data, ?_⟩
    decide

/-- Witness for C3: the pathological always-referral backend exhausts
the budget. -/
theorem c3_depth_limit_witness :
    (send envLoop st0 [ToRead.resolveOp (("/x").data)]).1 =
      .error (.depth ("maximum referral depth 128 reached, giving up")) ∧
    ("maximum referral depth 128 reached").data <:+:
      ("maximum referral depth 128 reached, giving up").data :=
  ⟨by rfl,
   ((c3_depth_limit envLoop st0 [ToRead.resolveOp (("/x").data)]).2
     ("maximum referral depth 128 reached, giving up") (by rfl)).2⟩

theorem sendIter_fst (env : Env T F) (batch : List T) (st : MuxState)
    (referrals : Nat) :
    (sendIter env batch st referrals).1 =
      (routeBatch env.proto (overflowCheck st).cached
        (env.routeClock referrals) batch).1 := by
  rw [sendIter]
  split
  · rfl
  · split
    · rfl
    · rfl

theorem sendLoop_trace_routed (env : Env T F) (batch : List T) :
    ∀ (fuel referrals : Nat) (st : MuxState) (D : Dispatch T),
    D ∈ (sendLoop env batch referrals fuel st).2.1 →
    (D.bind Prod.snd).Perm batch.enum := by
  intro fuel
  induction fuel with
  | zero =>
    intro referrals st D hD
    rw [sendLoop] at hD
    rcases hI : sendIter env batch st referrals with ⟨buckets, st₂, out⟩
    have hb : buckets = (routeBatch env.proto (overflowCheck st).cached
        (env.routeClock referrals) batch).1 := by
      rw [← sendIter_fst env batch st referrals, hI]
    rw [hI] at hD
    simp only at hD
    split at hD
    · simp only [List.mem_singleton] at hD
      subst hD
      rw [hb]
      exact routeBatch_bind_perm env.proto _ _ batch
    · split at hD
      · split at hD
        · simp only [List.mem_singleton] at hD
          subst hD
          rw [hb]
          exact routeBatch_bind_perm env.proto _ _ batch
        · simp only [List.mem_singleton] at hD
          subst hD
          rw [hb]
          exact routeBatch_bind_perm env.proto _ _ batch
      · simp only [List.mem_singleton] at hD
        subst hD
        rw [hb]
        exact routeBatch_bind_perm env.proto _ _ batch
  | succ n ih =>
    intro referrals st D hD
    rw [sendLoop] at hD
    rcases hI : sendIter env batch st referrals with ⟨buckets, st₂, out⟩
    have hb : buckets = (routeBatch env.proto (overflowCheck st).cached
        (env.routeClock referrals) batch).1 := by
      rw [← sendIter_fst env batch st referrals, hI]
    rw [hI] at hD
    simp only at hD
    split at hD
    · simp only [List.mem_singleton] at hD
      subst hD
      rw [hb]
      exact routeBatch_bind_perm env.proto _ _ batch
    · split at hD
      · split at hD
        · simp only [List.mem_singleton] at hD
          subst hD
          rw [hb]
          exact routeBatch_bind_perm env.proto _ _ batch
        · simp only [List.mem_cons] at hD
          rcases hD with hD | hD
          · subst hD
            rw [hb]
            exact routeBatch_bind_perm env.proto _ _ batch
          · exact ih (referrals + 1) st₂ D hD
      · simp only [List.mem_singleton] at hD
        subst hD
        rw [hb]
        exact routeBatch_bind_perm env.proto _ _ batch

/-- C4, amended: terminal replies do NOT remain across iterations — each
iteration starts from a fresh empty `finished` buffer and re-routes the
entire original batch, so every dispatch round of a send carries every
indexed operation of the batch (exactly once). -/
theorem c4_every_iteration_redispatches {T F : Type} (env : Env T F) (st : MuxState)
    (batch : List T) (D : Dispatch T) (hD : D ∈ (send env st batch).2.1) :
    (D.bind Prod.snd).Perm batch.enum :=
  sendLoop_trace_routed env batch (MAX_REFERRALS + 1) 0 st D hD

/-- C4, counterexample: with the mixed backend, iteration 0 gives
operation 0 a terminal reply (`resolved 0`, not a referral) while
operation 1 draws a referral; yet iteration 1 re-dispatches operation 0
to the default backend, contradicting the claim that an operation with a
terminal reply is not re-sent. -/
theorem c4_counterexample :
    (send envMixed st0
        [ToRead.resolveOp (("/a").data), ToRead.resolveOp (("/x/1").data)]).2.1.get? 0 =
      some [(none, [(0, ToRead.resolveOp (("/a").data)),
                    (1, ToRead.resolveOp (("/x/1").data))])] ∧
    envMixed.conn 0 none [(0, ToRead.resolveOp (("/a").data)),
        (1, ToRead.resolveOp (("/x/1").data))] =
      .ok [(0, FromRead.resolved 0), (1, FromRead.referral ⟨("/x").data, 1⟩)] ∧
    protoRead.refOf (FromRead.resolved 0) = none ∧
    (send envMixed st0
        [ToRead.resolveOp (("/a").data), ToRead.resolveOp (("/x/1").data)]).2.1.get? 1 =
      some [(none, [(0, ToRead.resolveOp (("/a").data))]),
            (some (("/x").data), [(1, ToRead.resolveOp (("/x/1").data))])] ∧
    (send envMixed st0
        [ToRead.resolveOp (("/a").data), ToRead.resolveOp (("/x/1").data)]).1 =
      .ok [FromRead.resolved 0, FromRead.resolved 1] := by
  refine ⟨by rfl, by rfl, by rfl, by rfl, by rfl⟩

/-- Witness for C4 at the second dispatch round of the mixed scenario. -/
theorem c4_every_iteration_redispatches_witness :
    (([(none, [(0, ToRead.resolveOp (("/a").data))]),
       (some (("/x").data), [(1, ToRead.resolveOp (("/x/1").data))])] :
        Dispatch ToRead).bind Prod.snd).Perm
      ([ToRead.resolveOp (("/a").data), ToRead.resolveOp (("/x/1").data)].enum) :=
  c4_every_iteration_redispatches envMixed st0
    [ToRead.resolveOp (("/a").data), ToRead.resolveOp (("/x/1").data)]
    [(none, [(0, ToRead.resolveOp (("/a").data))]),
     (some (("/x").data), [(1, ToRead.resolveOp (("/x/1").data))])]
    (by decide)

theorem getReferral_ne_none {c : Cache} {p : PathStr} {v : Nat × Referral}
    (h : (p, v) ∈ c) : getReferral c p ≠ none := by
  rw [getReferral]
  intro hn
  rw [Option.map_eq_none'] at hn
  rw [List.find?_eq_none] at hn
  exact hn _ h (by simp)

theorem openConns_new_keys (cached : Cache) (os : PathStr → List (Nat × T)) :
    ∀ (keys byPath : List PathStr), keys.Nodup →
    (∀ p ∈ keys, p ∉ byPath) →
    (∀ p ∈ keys, getReferral cached p ≠ none) →
    openConns cached byPath (keys.map (fun p => (some p, os p))) =
      .ok (byPath ++ keys) := by
  intro keys
  induction keys with
  | nil => intro byPath _ _ _; simp [openConns]
  | cons p rest ih =>
    intro byPath hnd hnew hget
    rw [List.map_cons, openConns]
    have hc : ¬ byPath.contains p = true := by
      intro hc
      rw [List.contains_iff_exists_mem_beq] at hc
      obtain ⟨x, hx, hbeq⟩ := hc
      have : p = x := by simpa using hbeq
      exact hnew p (List.mem_cons_self _ _) (this ▸ hx)
    rw [if_neg hc]
    cases hg : getReferral cached p with
    | none => exact absurd hg (hget p (List.mem_cons_self _ _))
    | some r =>
      rw [List.nodup_cons] at hnd
      rw [ih (byPath ++ [p]) hnd.2 ?hnew2 ?hget2]
      · rw [List.append_assoc, List.singleton_append]
      case hnew2 =>
        intro q hq hqmem
        rw [List.mem_append, List.mem_singleton] at hqmem
        rcases hqmem with h2 | h2
        · exact hnew q (List.mem_cons_of_mem _ hq) h2
        · exact hnd.1 (h2 ▸ hq)
      case hget2 =>
        intro q hq
        exact hget q (List.mem_cons_of_mem _ hq)

theorem fanKeys_nodup : fanKeys.Nodup := by
  refine List.Nodup.map ?_ (List.nodup_range _)
  intro m n h
  have := congrArg List.length h
  simpa [gradedPath] using this

theorem fanKeys_get : ∀ p ∈ fanKeys, getReferral fanCache p ≠ none := by
  intro p hp
  have hmem : (p, 1, (⟨p, 1⟩ : Referral)) ∈ fanCache :=
    List.mem_map.mpr ⟨p, hp, rfl⟩
  exact getReferral_ne_none hmem

set_option maxRecDepth 100000 in
set_option maxHeartbeats 8000000 in
/-- C6, counterexample: after the 129 `add_referral` calls drawn by the
fan-out batch the router cache holds `MAX_REFERRALS + 1 = 129 > 128`
entries, and opening connections for the 129 distinct-key referral
buckets of the fan-out dispatch leaves `by_path` with 129 entries as
well — neither map is bounded by `MAX_REFERRALS` after these
operations. -/
theorem c6_counterexample :
    MAX_REFERRALS < fanoutCache.length ∧
    openConns fanCache [] fanBuckets = .ok fanKeys ∧
    MAX_REFERRALS < fanKeys.length := by
  refine ⟨by decide, ?_, ?_⟩
  · have h := openConns_new_keys fanCache
      (fun p => [(p.length - 1, ToRead.resolveOp p)]) fanKeys []
      fanKeys_nodup (by intro p _ hp; simp at hp) fanKeys_get
    simpa [fanBuckets] using h
  · simp [fanKeys, MAX_REFERRALS]

/-- C6, amended: only the overflow check at the start of a send
iteration bounds `by_path`: right after the check `by_path` has at most
`MAX_REFERRALS` entries, because the whole map is reset to empty
whenever it exceeds that bound (and is left untouched otherwise). -/
theorem c6_overflow_reset (st : MuxState) :
    (overflowCheck st).byPath.length ≤ MAX_REFERRALS ∧
    ((st.byPath.length ≤ MAX_REFERRALS ∧ overflowCheck st = st) ∨
     ((overflowCheck st).byPath = [] ∧ MAX_REFERRALS < st.byPath.length)) := by
  rw [overflowCheck]
  by_cases h : st.byPath.length > MAX_REFERRALS
  · rw [if_pos h]
    exact ⟨by simp, Or.inr ⟨rfl, h⟩⟩
  · rw [if_neg h]
    exact ⟨by omega, Or.inl ⟨by omega, rfl⟩⟩


theorem checkExpected_ok_iff (expected : FromWrite) :
    ∀ l : List (ToWrite × FromWrite),
    checkExpected expected l = .ok () ↔ ∀ x ∈ l, x.2 = expected := by
  intro l
  induction l with
  | nil => simp [checkExpected]
  | cons x rest ih =>
    obtain ⟨t, f⟩ := x
    rw [checkExpected]
    by_cases hf : f = expected
    · rw [if_pos hf]
      rw [ih]
      constructor
      · intro h y hy
        rcases List.mem_cons.mp hy with hy | hy
        · subst hy; exact hf
        · exact h y hy
      · intro h y hy
        exact h y (List.mem_cons_of_mem _ hy)
    · rw [if_neg hf]
      constructor
      · intro h
        exact Except.noConfusion h
      · intro h
        exact absurd (h (t, f) (List.mem_cons_self _ _)) hf
  -- end

theorem checkExpected_mismatch (expected : FromWrite) :
    ∀ (pre : List FromWrite) (reqs : List ToWrite) (f : FromWrite)
      (rest : List FromWrite),
    (∀ x ∈ pre, x = expected) → f ≠ expected → pre.length < reqs.length →
    ∃ t, reqs.get? pre.length = some t ∧
      checkExpected expected (reqs.zip (pre ++ f :: rest)) =
        .error (.mismatch t f) := by
  intro pre
  induction pre with
  | nil =>
    intro reqs f rest hpre hf hlen
    cases reqs with
    | nil => simp at hlen
    | cons t reqs' =>
      refine ⟨t, rfl, ?_⟩
      rw [List.nil_append, List.zip_cons_cons, checkExpected, if_neg hf]
  | cons x pre' ih =>
    intro reqs f rest hpre hf hlen
    cases reqs with
    | nil => simp at hlen
    | cons t reqs' =>
      have hx : x = expected := hpre x (List.mem_cons_self _ _)
      obtain ⟨t', hget, hchk⟩ := ih reqs' f rest
        (fun y hy => hpre y (List.mem_cons_of_mem _ hy)) hf (by simpa using hlen)
      refine ⟨t', by simpa using hget, ?_⟩
      rw [List.cons_append, List.zip_cons_cons, checkExpected, if_pos hx, hchk]



theorem send_ok_length {T F : Type} (env : Env T F) (hconn : ConnContract env)
    (st : MuxState) (batch : List T) (v : List F) (trace : List (Dispatch T))
    (stf : MuxState) (h : send env st batch = (.ok v, trace, stf)) :
    v.length = batch.length :=
  (sendLoop_ok env hconn batch (MAX_REFERRALS + 1) 0 st v trace stf h).1

theorem sendExpect_spec (env : Env ToWrite FromWrite) (st : MuxState)
    (batch : List PathStr) (f : PathStr → ToWrite) (expected : FromWrite)
    (hconn : ConnContract env) (froms : List FromWrite)
    (trace : List (Dispatch ToWrite)) (stf : MuxState)
    (h : send env st (batch.map f) = (.ok froms, trace, stf)) :
    ((sendExpect env st batch f expected = .ok ()) ↔
      ∀ r ∈ froms, r = expected) ∧
    (∀ pre fr rest, froms = pre ++ fr :: rest →
      (∀ x ∈ pre, x = expected) → fr ≠ expected →
      ∃ p, batch.get? pre.length = some p ∧
        sendExpect env st batch f expected = .error (.mismatch (f p) fr)) := by
  have hlen : froms.length = batch.length := by
    have := send_ok_length env hconn st (batch.map f) froms trace stf h
    simpa using this
  have h1 : (send env st (batch.map f)).1 = .ok froms := by rw [h]
  have hse : sendExpect env st batch f expected =
      checkExpected expected ((batch.map f).zip froms) := by
    rw [sendExpect, h1]
    simp only
    rw [if_neg (by simp [hlen])]
  constructor
  · rw [hse, checkExpected_ok_iff]
    have hmap : ((batch.map f).zip froms).map Prod.snd = froms :=
      List.map_snd_zip _ _ (by simp [hlen])
    constructor
    · intro hzip r hr
      rw [← hmap] at hr
      obtain ⟨x, hx, hxr⟩ := List.mem_map.mp hr
      exact hxr ▸ hzip x hx
    · intro hall x hx
      have : x.2 ∈ ((batch.map f).zip froms).map Prod.snd :=
        List.mem_map.mpr ⟨x, hx, rfl⟩
      rw [hmap] at this
      exact hall x.2 this
  · intro pre fr rest hfroms hpre hfr
    have hplen : pre.length < (batch.map f).length := by
      rw [hfroms] at hlen
      simp at hlen
      simp
      omega
    obtain ⟨t, hget, hchk⟩ :=
      checkExpected_mismatch expected pre (batch.map f) fr rest hpre hfr hplen
    rw [List.get?_map] at hget
    cases hbp : batch.get? pre.length with
    | none => rw [hbp] at hget; simp at hget
    | some p =>
      rw [hbp] at hget
      simp only [Option.map_some', Option.some.injEq] at hget
      refine ⟨p, rfl, ?_⟩
      rw [hse, hfroms, hchk, hget]



theorem envPubOk_contract : ConnContract envPubOk := by
  intro iter k sb out h
  injection h with h
  rw [← h, List.map_map]
  have heq : (Prod.fst ∘ fun it : Nat × ToWrite => (it.1, FromWrite.published)) =
      Prod.fst := rfl
  rw [heq]

theorem envPubBad_contract : ConnContract envPubBad := by
  intro iter k sb out h
  injection h with h
  rw [← h, List.map_map]
  have heq : (Prod.fst ∘ fun it : Nat × ToWrite =>
      (it.1, if it.1 = 1 then FromWrite.unpublished else FromWrite.published)) =
      Prod.fst := rfl
  rw [heq]

/-- C7: against any backend satisfying the contract, whenever the
underlying `send` of the homogeneous batch succeeds with replies
`froms`, `publish` (resp. `publish_default`, `unpublish`) returns
`Ok(())` exactly when every reply equals the expected reply
(`published` / `published` / `unpublished`); and at the first
divergence the call fails with `WriteErr.mismatch`, naming the
offending request and the reply received. -/
theorem c7_expect_protocol (env : Env ToWrite FromWrite) (hconn : ConnContract env)
    (st : MuxState) (batch : List PathStr) (froms : List FromWrite)
    (trace : List (Dispatch ToWrite)) (stf : MuxState) :
    (send env st (batch.map ToWrite.publishOp) = (.ok froms, trace, stf) →
      ((publish env st batch = .ok ()) ↔ ∀ r ∈ froms, r = .published) ∧
      (∀ pre fr rest, froms = pre ++ fr :: rest →
        (∀ x ∈ pre, x = FromWrite.published) → fr ≠ .published →
        ∃ p, batch.get? pre.length = some p ∧
          publish env st batch = .error (.mismatch (.publishOp p) fr))) ∧
    (send env st (batch.map ToWrite.publishDefaultOp) = (.ok froms, trace, stf) →
      ((publishDefault env st batch = .ok ()) ↔ ∀ r ∈ froms, r = .published) ∧
      (∀ pre fr rest, froms = pre ++ fr :: rest →
        (∀ x ∈ pre, x = FromWrite.published) → fr ≠ .published →
        ∃ p, batch.get? pre.length = some p ∧
          publishDefault env st batch = .error (.mismatch (.publishDefaultOp p) fr))) ∧
    (send env st (batch.map ToWrite.unpublishOp) = (.ok froms, trace, stf) →
      ((unpublish env st batch = .ok ()) ↔ ∀ r ∈ froms, r = .unpublished) ∧
      (∀ pre fr rest, froms = pre ++ fr :: rest →
        (∀ x ∈ pre, x = FromWrite.unpublished) → fr ≠ .unpublished →
        ∃ p, batch.get? pre.length = some p ∧
          unpublish env st batch = .error (.mismatch (.unpublishOp p) fr))) := by
  refine ⟨fun h => ?_, fun h => ?_, fun h => ?_⟩
  · exact sendExpect_spec env st batch ToWrite.publishOp FromWrite.published
      hconn froms trace stf h
  · exact sendExpect_spec env st batch ToWrite.publishDefaultOp FromWrite.published
      hconn froms trace stf h
  · exact sendExpect_spec env st batch ToWrite.unpublishOp FromWrite.unpublished
      hconn froms trace stf h

/-- Witness for C7: `publish(["/a","/b"])` against a backend replying
`published` to both yields `Ok(())`, and against a backend replying
`(0, published), (1, unpublished)` fails naming request 1. -/
theorem c7_expect_protocol_witness :
    publish envPubOk st0 [("/a").data, ("/b").data] = .ok () ∧
    publish envPubBad st0 [("/a").data, ("/b").data] =
      .error (.mismatch (.publishOp (("/b").data)) .unpublished) := by
  constructor
  · have h := (c7_expect_protocol envPubOk envPubOk_contract st0
      [("/a").data, ("/b").data] [FromWrite.published, FromWrite.published]
      [[(none, [(0, ToWrite.publishOp (("/a").data)),
                (1, ToWrite.publishOp (("/b").data))])]]
      st0).1 (by rfl)
    exact h.1.mpr (by decide)
  · have h := (c7_expect_protocol envPubBad envPubBad_contract st0
      [("/a").data, ("/b").data] [FromWrite.published, FromWrite.unpublished]
      [[(none, [(0, ToWrite.publishOp (("/a").data)),
                (1, ToWrite.publishOp (("/b").data))])]]
      st0).1 (by rfl)
    obtain ⟨p, hp, hres⟩ := h.2 [FromWrite.published] FromWrite.unpublished [] rfl
      (by decide) (by decide)
    have h3 : some (("/b").data) = some p := hp
    injection h3 with h3
    rw [← h3] at hres
    exact hres


theorem strCmp_self : ∀ a : List Char, strCmp a a = .eq
  | [] => rfl
  | c :: xs => by
    rw [strCmp]
    rw [if_neg (lt_irrefl c), if_neg (lt_irrefl c)]
    exact strCmp_self xs

theorem strCmp_eq_iff : ∀ a b : List Char, strCmp a b = .eq ↔ a = b
  | [], [] => by simp [strCmp]
  | [], _ :: _ => by simp [strCmp]
  | _ :: _, [] => by simp [strCmp]
  | a :: xs, b :: ys => by
    rw [strCmp]
    by_cases h1 : a < b
    · rw [if_pos h1]; simp [ne_of_lt h1]
    · rw [if_neg h1]
      by_cases h2 : b < a
      · rw [if_pos h2]; simp [(ne_of_lt h2).symm]
      · rw [if_neg h2]
        have hab : a = b := le_antisymm (not_lt.1 h2) (not_lt.1 h1)
        rw [strCmp_eq_iff xs ys]
        simp [hab]

theorem strCmp_gt_iff : ∀ a b : List Char, strCmp a b = .gt ↔ strCmp b a = .lt
  | [], [] => by simp [strCmp]
  | [], _ :: _ => by simp [strCmp]
  | _ :: _, [] => by simp [strCmp]
  | a :: xs, b :: ys => by
    rw [strCmp, strCmp]
    by_cases h1 : a < b
    · rw [if_pos h1, if_neg (lt_asymm h1), if_pos h1]; simp
    · rw [if_neg h1]
      by_cases h2 : b < a
      · rw [if_pos h2, if_pos h2]; simp
      · rw [if_neg h2, if_neg h2, if_neg h1]
        exact strCmp_gt_iff xs ys

theorem strCmp_lt_trans : ∀ a b c : List Char,
    strCmp a b = .lt → strCmp b c = .lt → strCmp a c = .lt
  | [], [], _, h1, _ => by simp [strCmp] at h1
  | [], _ :: _, [], _, h2 => by simp [strCmp] at h2
  | [], _ :: _, _ :: _, _, _ => rfl
  | _ :: _, [], _, h1, _ => by simp [strCmp] at h1
  | _ :: _, _ :: _, [], _, h2 => by simp [strCmp] at h2
  | a :: xs, b :: ys, c :: zs, h1, h2 => by
    rw [strCmp] at h1 h2 ⊢
    by_cases hab : a < b
    · by_cases hbc : b < c
      · rw [if_pos (lt_trans hab hbc)]
      · rw [if_neg hbc] at h2
        by_cases hcb : c < b
        · rw [if_pos hcb] at h2; cases h2
        · have : b = c := le_antisymm (not_lt.1 hcb) (not_lt.1 hbc)
          rw [if_pos (this ▸ hab)]
    · rw [if_neg hab] at h1
      by_cases hba : b < a
      · rw [if_pos hba] at h1; cases h1
      · have hab2 : a = b := le_antisymm (not_lt.1 hba) (not_lt.1 hab)
        subst hab2
        by_cases hac : a < c
        · rw [if_pos hac]
        · rw [if_neg hac] at h2 ⊢
          by_cases hca : c < a
          · rw [if_pos hca] at h2; cases h2
          · rw [if_neg hca] at h2 ⊢
            rw [if_neg hab] at h1
            exact strCmp_lt_trans xs ys zs h1 h2

theorem mem_cacheInsert (e x : PathStr × Nat × Referral) :
    ∀ c : Cache, x ∈ cacheInsert e c → x = e ∨ x ∈ c := by
  intro c
  induction c with
  | nil => intro h; rw [cacheInsert] at h; simpa using h
  | cons f rest ih =>
    intro h
    rw [cacheInsert] at h
    rcases hc : strCmp e.1 f.1 with _ | _ | _ <;> rw [hc] at h <;>
      rw [List.mem_cons] at h
    · rcases h with h | h
      · exact .inl h
      · exact .inr h
    · rcases h with h | h
      · exact .inl h
      · exact .inr (List.mem_cons_of_mem f h)
    · rcases h with h | h
      · exact .inr (h ▸ List.mem_cons_self f rest)
      · rcases ih h with h2 | h2
        · exact .inl h2
        · exact .inr (List.mem_cons_of_mem f h2)

theorem cacheInsert_sorted (e : PathStr × Nat × Referral) :
    ∀ c : Cache, SortedCache c → SortedCache (cacheInsert e c)
  | [], _ => List.pairwise_singleton _ _
  | f :: rest, h => by
    rw [SortedCache, List.pairwise_cons] at h
    obtain ⟨hf, hrest⟩ := h
    rw [cacheInsert]
    rcases hc : strCmp e.1 f.1 with _ | _ | _
    · rw [SortedCache, List.pairwise_cons]
      refine ⟨?_, List.Pairwise.cons hf hrest⟩
      intro y hy
      rw [List.mem_cons] at hy
      rcases hy with hy | hy
      · rw [hy]; exact hc
      · exact strCmp_lt_trans _ _ _ hc (hf y hy)
    · rw [SortedCache, List.pairwise_cons]
      refine ⟨?_, hrest⟩
      intro y hy
      rw [strCmp_eq_iff] at hc
      rw [hc]
      exact hf y hy
    · rw [SortedCache, List.pairwise_cons]
      refine ⟨?_, cacheInsert_sorted e rest hrest⟩
      intro y hy
      rcases mem_cacheInsert e y rest hy with hy | hy
      · rw [hy]; exact (strCmp_gt_iff _ _).1 hc
      · exact hf y hy

theorem keys_eq_of_sorted {c : Cache} (h : SortedCache c) :
    ∀ {p v w}, (p, v) ∈ c → (p, w) ∈ c → v = w := by
  induction c with
  | nil => intro p v w hv _; simp at hv
  | cons f rest ih =>
    rw [SortedCache, List.pairwise_cons] at h
    obtain ⟨hf, hrest⟩ := h
    intro p v w hv hw
    rw [List.mem_cons] at hv hw
    rcases hv with hv | hv <;> rcases hw with hw | hw
    · have h2 : ((p, v) : PathStr × Nat × Referral) = (p, w) := hv.trans hw.symm
      exact (Prod.ext_iff.1 h2).2
    · exfalso
      have hlt := hf (p, w) hw
      rw [← hv] at hlt
      simp [strCmp_self] at hlt
    · exfalso
      have hlt := hf (p, v) hv
      rw [← hw] at hlt
      simp [strCmp_self] at hlt
    · exact ih hrest hv hw

theorem routeOne_some (now : Nat) (q p : PathStr) :
    ∀ (entries : List (PathStr × Nat × Referral)) (l : List PathStr),
    routeOne now q entries = (some p, l) →
    l = [] ∧ ∃ exp r, (p, exp, r) ∈ entries ∧ now < exp := by
  intro entries
  induction entries with
  | nil => intro l h; rw [routeOne] at h; cases (Prod.ext_iff.1 h).1
  | cons f rest ih =>
    rcases f with ⟨fp, fexp, fr⟩
    intro l h
    rw [routeOne] at h
    by_cases hpre : fp.isPrefixOf q
    · rw [if_pos hpre] at h
      by_cases hexp : now < fexp
      · rw [if_pos hexp] at h
        obtain ⟨h1, h2⟩ := Prod.ext_iff.1 h
        simp only at h1 h2
        injection h1 with h1
        subst h1
        exact ⟨h2.symm, fexp, fr, List.mem_cons_self _ _, hexp⟩
      · rw [if_neg hexp] at h
        cases (Prod.ext_iff.1 h).1
    · rw [if_neg hpre] at h
      obtain ⟨hl, exp, r, hmem, hlt⟩ := ih l h
      exact ⟨hl, exp, r, List.mem_cons_of_mem _ hmem, hlt⟩

theorem routeOne_collect (now : Nat) (q : PathStr) :
    ∀ (entries : List (PathStr × Nat × Referral)) (x : PathStr),
    x ∈ (routeOne now q entries).2 →
    ∃ exp r, (x, exp, r) ∈ entries ∧ ¬ now < exp := by
  intro entries
  induction entries with
  | nil => intro x h; rw [routeOne] at h; simp at h
  | cons f rest ih =>
    rcases f with ⟨fp, fexp, fr⟩
    intro x h
    rw [routeOne] at h
    by_cases hpre : fp.isPrefixOf q
    · rw [if_pos hpre] at h
      by_cases hexp : now < fexp
      · rw [if_pos hexp] at h; simp at h
      · rw [if_neg hexp] at h
        simp only [List.mem_singleton] at h
        subst h
        exact ⟨fexp, fr, List.mem_cons_self _ _, hexp⟩
    · rw [if_neg hpre] at h
      obtain ⟨exp, r, hmem, hlt⟩ := ih x h
      exact ⟨exp, r, List.mem_cons_of_mem _ hmem, hlt⟩

theorem mem_pushBucket {K A : Type} [DecidableEq K] :
    ∀ (acc : List (K × List A)) (k : K) (v : A) (b : K × List A),
    b ∈ pushBucket acc k v → b.1 = k ∨ b.1 ∈ acc.map Prod.fst := by
  intro acc
  induction acc with
  | nil =>
    intro k v b h
    rw [pushBucket] at h
    rw [List.mem_singleton] at h
    subst h
    exact .inl rfl
  | cons f rest ih =>
    intro k v b h
    rw [pushBucket] at h
    by_cases hk : f.1 = k
    · rw [if_pos hk] at h
      rw [List.mem_cons] at h
      rcases h with h | h
      · exact .inl (by rw [h]; exact hk)
      · exact .inr (by simp; exact .inr ⟨b.2, by simpa using h⟩)
    · rw [if_neg hk] at h
      rw [List.mem_cons] at h
      rcases h with h | h
      · exact .inr (by rw [h]; simp)
      · rcases ih k v b h with h2 | h2
        · exact .inl h2
        · exact .inr (by simp at h2 ⊢; exact .inr h2)

theorem routeFold_live (proto : Proto T F) (cached : Cache) (now : Nat) :
    ∀ (l : List (Nat × T)) (acc : List (Option PathStr × List (Nat × T)) × List PathStr),
    (∀ b ∈ acc.1, ∀ p : PathStr, b.1 = some p →
      ∃ exp r, (p, exp, r) ∈ cached ∧ now < exp) →
    (∀ x ∈ acc.2, ∃ exp r, (x, exp, r) ∈ cached ∧ ¬ now < exp) →
    (∀ b ∈ (l.foldl (routeStep proto cached now) acc).1, ∀ p : PathStr, b.1 = some p →
      ∃ exp r, (p, exp, r) ∈ cached ∧ now < exp) ∧
    (∀ x ∈ (l.foldl (routeStep proto cached now) acc).2,
      ∃ exp r, (x, exp, r) ∈ cached ∧ ¬ now < exp) := by
  intro l
  induction l with
  | nil => intro acc h1 h2; exact ⟨h1, h2⟩
  | cons it rest ih =>
    intro acc h1 h2
    rw [List.foldl_cons]
    apply ih
    · -- buckets after one routeStep
      intro b hb p hp
      rw [routeStep] at hb
      rcases hpath : proto.path it.2 with _ | q <;> rw [hpath] at hb
      · simp only at hb
        rcases mem_pushBucket acc.1 none it b hb with h | h
        · rw [h] at hp; cases hp
        · obtain ⟨b', hb', hbb'⟩ := List.mem_map.1 h
          exact h1 b' hb' p (by rw [hbb']; exact hp)
      · simp only at hb
        rcases hr : routeOne now q ((cached.filter
            (fun e => strCmp e.1 q ≠ .gt)).reverse) with ⟨k, coll⟩
        rw [hr] at hb
        rcases mem_pushBucket acc.1 k it b hb with h | h
        · rw [h] at hp
          subst hp
          obtain ⟨-, exp, r, hmem, hlt⟩ := routeOne_some now q p _ coll hr
          rw [List.mem_reverse] at hmem
          exact ⟨exp, r, (List.mem_filter.1 hmem).1, hlt⟩
        · obtain ⟨b', hb', hbb'⟩ := List.mem_map.1 h
          exact h1 b' hb' p (by rw [hbb']; exact hp)
    · -- collected keys after one routeStep
      intro x hx
      rw [routeStep] at hx
      rcases hpath : proto.path it.2 with _ | q <;> rw [hpath] at hx
      · exact h2 x hx
      · simp only at hx
        rw [List.mem_append] at hx
        rcases hx with hx | hx
        · exact h2 x hx
        · obtain ⟨exp, r, hmem, hlt⟩ := routeOne_collect now q _ x hx
          rw [List.mem_reverse] at hmem
          exact ⟨exp, r, (List.mem_filter.1 hmem).1, hlt⟩

theorem route_keys_live (proto : Proto T F) (cached : Cache) (now : Nat)
    (batch : List T) (hs : SortedCache cached) :
    ∀ b ∈ (routeBatch proto cached now batch).1, ∀ p : PathStr, b.1 = some p →
      getReferral (routeBatch proto cached now batch).2 p ≠ none := by
  intro b hb p hp
  have hb' : b ∈ (batch.enum.foldl (routeStep proto cached now) ([], [])).1 := hb
  obtain ⟨h1, h2⟩ := routeFold_live proto cached now batch.enum ([], [])
    (by intro b hb; simp at hb) (by intro x hx; simp at hx)
  obtain ⟨exp, r, hmem, hlt⟩ := h1 b hb' p hp
  have hnc : ¬ (batch.enum.foldl (routeStep proto cached now) ([], [])).2.contains p := by
    intro hc
    rw [List.contains_iff_exists_mem_beq] at hc
    obtain ⟨x, hx, hbeq⟩ := hc
    have hxp : p = x := by simpa using hbeq
    subst hxp
    obtain ⟨exp', r', hmem', hlt'⟩ := h2 p hx
    have := keys_eq_of_sorted hs hmem hmem'
    have hexp : exp = exp' := (Prod.ext_iff.1 this).1
    exact hlt' (hexp ▸ hlt)
  have hmemf : (p, exp, r) ∈ (routeBatch proto cached now batch).2 := by
    show (p, exp, r) ∈ cached.filter _
    rw [List.mem_filter]
    exact ⟨hmem, by simpa using hnc⟩
  exact getReferral_ne_none hmemf

theorem openConns_ok (cached : Cache) :
    ∀ (buckets : List (Option PathStr × List (Nat × T))) (byPath : List PathStr),
    (∀ b ∈ buckets, ∀ p : PathStr, b.1 = some p → getReferral cached p ≠ none) →
    ∃ out, openConns cached byPath buckets = .ok out := by
  intro buckets
  induction buckets with
  | nil => intro byPath _; exact ⟨byPath, rfl⟩
  | cons b rest ih =>
    intro byPath h
    rcases b with ⟨k, ops⟩
    rcases k with _ | p
    · rw [openConns]
      exact ih byPath (fun b hb => h b (List.mem_cons_of_mem _ hb))
    · rw [openConns]
      by_cases hc : byPath.contains p
      · rw [if_pos hc]
        exact ih byPath (fun b hb => h b (List.mem_cons_of_mem _ hb))
      · rw [if_neg hc]
        rcases hg : getReferral cached p with _ | ref
        · exact absurd hg (h (some p, ops) (List.mem_cons_self _ _) p rfl)
        · exact ih (byPath ++ [p]) (fun b hb => h b (List.mem_cons_of_mem _ hb))

theorem collectFold_sorted (proto : Proto T F) (addNow : Nat) :
    ∀ (r : List (Nat × F)) (acc : Cache × List (Nat × F) × Bool),
    SortedCache acc.1 → SortedCache (r.foldl (collectStep proto addNow) acc).1 := by
  intro r
  induction r with
  | nil => intro acc h; exact h
  | cons it rest ih =>
    intro acc h
    rw [List.foldl_cons]
    apply ih
    rw [collectStep]
    rcases proto.refOf it.2 with _ | ref
    · exact h
    · exact cacheInsert_sorted _ acc.1 h

theorem processReplies_sorted (proto : Proto T F) (addNow : Nat) :
    ∀ (rs : List (Except String (List (Nat × F)))) (cached : Cache)
      (fin : List (Nat × F)) (flag : Bool), SortedCache cached →
      SortedCache (processReplies proto addNow rs cached fin flag).1 := by
  intro rs
  induction rs with
  | nil => intro cached fin flag h; exact h
  | cons r rest ih =>
    intro cached fin flag h
    rcases r with e | r
    · exact h
    · rw [processReplies]
      exact ih _ _ _ (collectFold_sorted proto addNow r (cached, fin, flag) h)

theorem overflowCheck_cached (st : MuxState) :
    (overflowCheck st).cached = st.cached := by
  rw [overflowCheck]; split <;> rfl

theorem routeBatch_sorted (proto : Proto T F) (cached : Cache) (now : Nat)
    (batch : List T) (hs : SortedCache cached) :
    SortedCache (routeBatch proto cached now batch).2 := by
  show SortedCache (cached.filter _)
  exact List.Pairwise.filter _ hs

theorem sendIter_no_panic (env : Env T F) (batch : List T) (st : MuxState)
    (referrals : Nat) (hs : SortedCache st.cached) (buckets : Dispatch T)
    (st₂ : MuxState) (out : Except SendErr (List (Nat × F) × Bool))
    (h : sendIter env batch st referrals = (buckets, st₂, out)) :
    out ≠ .error .panic ∧ SortedCache st₂.cached := by
  have hs₁ : SortedCache (overflowCheck st).cached := by
    rw [overflowCheck_cached]; exact hs
  have hrl := route_keys_live env.proto (overflowCheck st).cached
    (env.routeClock referrals) batch hs₁
  have hrs := routeBatch_sorted env.proto (overflowCheck st).cached
    (env.routeClock referrals) batch hs₁
  rw [sendIter] at h
  split at h
  · rename_i heq
    exfalso
    obtain ⟨o, ho⟩ := openConns_ok _ _ _ hrl
    rw [ho] at heq
    cases heq
  · split at h
    · rename_i byPath₁ hoc cached₂ e hpr
      injection h with hb h
      injection h with hst hout
      subst hout
      refine ⟨by simp, ?_⟩
      rw [← hst]
      have := processReplies_sorted env.proto (env.addClock referrals)
        ((routeBatch env.proto (overflowCheck st).cached
          (env.routeClock referrals) batch).1.map
          (fun b => env.conn referrals b.1 b.2)) _ [] false hrs
      rw [hpr] at this
      exact this
    · rename_i byPath₁ hoc cached₂ fin flag hpr
      injection h with hb h
      injection h with hst hout
      subst hout
      refine ⟨by simp, ?_⟩
      rw [← hst]
      have := processReplies_sorted env.proto (env.addClock referrals)
        ((routeBatch env.proto (overflowCheck st).cached
          (env.routeClock referrals) batch).1.map
          (fun b => env.conn referrals b.1 b.2)) _ [] false hrs
      rw [hpr] at this
      exact this

theorem sendLoop_no_panic (env : Env T F) (batch : List T) :
    ∀ (fuel referrals : Nat) (st : MuxState), SortedCache st.cached →
    (sendLoop env batch referrals fuel st).1 ≠ .error .panic := by
  intro fuel
  induction fuel with
  | zero =>
    intro referrals st hs
    rw [sendLoop]
    rcases hI : sendIter env batch st referrals with ⟨buckets, st₂, out⟩
    obtain ⟨hnp, hs₂⟩ := sendIter_no_panic env batch st referrals hs buckets st₂ out hI
    simp only
    split
    · rename_i e
      intro hm
      injection hm with hm
      exact hnp (by rw [hm])
    · rename_i fin flag
      split
      · split
        · simp
        · simp
      · simp
  | succ n ih =>
    intro referrals st hs
    rw [sendLoop]
    rcases hI : sendIter env batch st referrals with ⟨buckets, st₂, out⟩
    obtain ⟨hnp, hs₂⟩ := sendIter_no_panic env batch st referrals hs buckets st₂ out hI
    simp only
    split
    · rename_i e
      intro hm
      injection hm with hm
      exact hnp (by rw [hm])
    · rename_i fin flag
      split
      · split
        · simp
        · exact ih (referrals + 1) st₂ hs₂
      · simp

/-- C10: when the router cache satisfies the `BTreeMap` key invariant
(strictly increasing keys), `route_batch` emits a `some p` bucket only
for a key `p` that is still present in the cache it returns (expired
keys it garbage-collects are exactly keys all of whose hits fell to the
default bucket), so `get_referral(p)` on the connection-opening path is
always `some` and the modelled `unwrap` panic of `ResolverWrap::send`
is unreachable. -/
theorem c10_no_unwrap_panic (env : Env T F) (st : MuxState) (batch : List T)
    (now : Nat) (hs : SortedCache st.cached) :
    (∀ b ∈ (routeBatch env.proto st.cached now batch).1, ∀ p : PathStr,
      b.1 = some p →
      getReferral (routeBatch env.proto st.cached now batch).2 p ≠ none) ∧
    (send env st batch).1 ≠ .error .panic := by
  refine ⟨route_keys_live env.proto st.cached now batch hs, ?_⟩
  rw [send]
  exact sendLoop_no_panic env batch (MAX_REFERRALS + 1) 0 st hs

/-- Witness for C10: the mixed referral scenario starting from the empty
cache neither panics nor routes to a dead key. -/
theorem c10_no_unwrap_panic_witness :
    (∀ b ∈ (routeBatch envMixed.proto st0.cached 0
        [ToRead.resolveOp (("/a").data)]).1, ∀ p : PathStr,
      b.1 = some p →
      getReferral (routeBatch envMixed.proto st0.cached 0
        [ToRead.resolveOp (("/a").data)]).2 p ≠ none) ∧
    (send envMixed st0 [ToRead.resolveOp (("/a").data)]).1 ≠
      .error .panic :=
  c10_no_unwrap_panic envMixed st0 [ToRead.resolveOp (("/a").data)] 0
    List.Pairwise.nil

end Claims

end Netidx
